import Mathlib

/-!
Verification of the session-replay core of the `record-tui` repository.

The Go (and JS) sources operate on strings; we model a string as a `List Char`
(a sequence of symbols).  All positions/offsets in the model count symbols; the
Go code counts bytes, but every transformation in scope operates on whole
symbols (match boundaries, line breaks, separators), so the two views are
isomorphic for the stated properties.

Sources embedded (paths refer to the repository):
- `internal/session/clear.go` / `src/unnamed/part_004`: clear-sequence and
  alternate-screen neutralization (the `part_004` version of `clearPattern`,
  which supersedes the narrower one in `clear.go`, is used throughout; both
  recognize `ESC[2J`, which all concrete theorems below use).
- `internal/session/cleaner.go`: `StripMetadata`, `StripMetadataOnly`.
- `internal/session/offset.go`: `OffsetMapper`, offset-tracking passes.
- `src/unnamed/part_002` (package `timing`): `Parse`, `ExtractCommands`.
- `src/unnamed/part_001` (package `toc`): `FromCommands`.
- `internal/js/cleaner-core.js`: the streaming cleaner.
-/

/-- Strings are modelled as lists of characters. -/
abbrev Str := List Char

/-- The escape character `\x1b` that introduces every recognized control
sequence. -/
def esc : Char := '\x1b'

/-- Go's `unicode.IsSpace`: the White_Space code points
(TAB LF VT FF CR SP NEL NBSP, OGHAM SP MARK, U+2000-200A, LS, PS, NNBSP,
MMSP, IDEOGRAPHIC SP). -/
def goIsSpace (c : Char) : Bool :=
  (9 ≤ c.toNat ∧ c.toNat ≤ 13) ∨ c.toNat = 32 ∨
  c.toNat = 0x85 ∨ c.toNat = 0xa0 ∨ c.toNat = 0x1680 ∨
  (0x2000 ≤ c.toNat ∧ c.toNat ≤ 0x200a) ∨
  c.toNat = 0x2028 ∨ c.toNat = 0x2029 ∨ c.toNat = 0x202f ∨
  c.toNat = 0x205f ∨ c.toNat = 0x3000

/-- `strings.TrimSpace(s) != ""`: the string has at least one
non-whitespace character. -/
def nonBlank (l : Str) : Bool := l.any (fun c => ¬ goIsSpace c)

/-- Go's `strings.TrimSpace` (trim whitespace from both ends). -/
def trimSpace (l : Str) : Str :=
  ((l.dropWhile goIsSpace).reverse.dropWhile goIsSpace).reverse

/-- A string containing no escape character (ordinary content: it can take
part in no recognized control sequence). -/
def escFree (l : Str) : Bool := l.all (fun c => c ≠ esc)

/-- Go slice `s[a:b]`. -/
def goSlice (l : Str) (a b : Nat) : Str := (l.take b).drop a

/-- Go index `s[i]` (all uses below are in bounds). -/
def charAt (l : Str) (i : Nat) : Char := l.getD i ' '

namespace session

/-- The strings matched by `clearPattern` in `part_004`
(`\x1b\[(?:1;1)?H\x1b\[(?:0?J|[23]J)|\x1b\[[23]J\x1b\[H|\x1b\[[23]J`),
listed so that `find?` over this list realizes the regex's ordered-alternation
(leftmost-first) semantics: the first branch's eight concretizations are
mutually exclusive as prefixes, and the second branch (`ESC[2J ESC[H`)
must be tried before the third (`ESC[2J`), of which it is an extension. -/
def clearStrings : List Str :=
  [ "\x1b[H\x1b[J".data, "\x1b[H\x1b[0J".data, "\x1b[H\x1b[2J".data, "\x1b[H\x1b[3J".data,
    "\x1b[1;1H\x1b[J".data, "\x1b[1;1H\x1b[0J".data, "\x1b[1;1H\x1b[2J".data, "\x1b[1;1H\x1b[3J".data,
    "\x1b[2J\x1b[H".data, "\x1b[3J\x1b[H".data,
    "\x1b[2J".data, "\x1b[3J".data ]

/-- Attempt to match `clearPattern` at the head of `l`; returns the length of
the (leftmost-first) match. -/
def matchClearAt (l : Str) : Option Nat :=
  (clearStrings.find? (fun c => c.isPrefixOf l)).map List.length

/-- The strings matched by `altScreenPattern` (`\x1b\[\?(1049|47|1047)[hl]`);
the six concretizations are mutually exclusive as prefixes. -/
def altStrings : List Str :=
  [ "\x1b[?1049h".data, "\x1b[?1049l".data, "\x1b[?47h".data, "\x1b[?47l".data,
    "\x1b[?1047h".data, "\x1b[?1047l".data ]

/-- Attempt to match `altScreenPattern` at the head of `l`. -/
def matchAltAt (l : Str) : Option Nat :=
  (altStrings.find? (fun c => c.isPrefixOf l)).map List.length

/-- `regexp.FindAllStringIndex`: non-overlapping leftmost matches.  The third
argument is the number of positions still covered by the previous match (the
scan resumes after the end of each match). -/
def findAllAux (m : Str → Option Nat) : Str → Nat → Nat → List (Nat × Nat)
  | [], _, _ => []
  | _ :: t, pos, Nat.succ k => findAllAux m t (pos + 1) k
  | c :: t, pos, 0 =>
    match m (c :: t) with
    | some n => (pos, pos + n) :: findAllAux m t (pos + 1) (n - 1)
    | none => findAllAux m t (pos + 1) 0

/-- All (start, end) matches of matcher `m` in `l`. -/
def findAll (m : Str → Option Nat) (l : Str) : List (Nat × Nat) :=
  findAllAux m l 0 0

/-- `ClearSeparator` (clear.go:9). -/
def ClearSeparator : Str := "\n\n──────── terminal cleared ────────\n\n".data

/-- `AltScreenSeparator` (part_004:12). -/
def AltScreenSeparator : Str := "\n\n──────── alternate screen ────────\n\n".data

/-- One step of the loop in `NeutralizeClearSequences` (part_004:44-66).
State: (result, lastEnd): the builder plus the end of the previous match. -/
def ncsStep (content : Str) (st : Str × Nat) (me : Nat × Nat) : Str × Nat :=
  let before := goSlice content st.2 me.1
  if nonBlank before then
    let res := st.1 ++ before
    let res := if nonBlank (content.drop me.2) then res ++ ClearSeparator else res
    (res, me.2)
  else (st.1, me.2)

/-- `NeutralizeClearSequences` (part_004:32-74): replace terminal clear
sequences with a visual separator.  The fold mirrors the Go loop over the
matches.  (The Go source's final `if result.Len() == 0` has identical
branches and is dropped.) -/
def NeutralizeClearSequences (content : Str) : Str :=
  let ms := findAll matchClearAt content
  if ms = [] then content
  else
    let st := ms.foldl (ncsStep content) ([], 0)
    let remaining := content.drop st.2
    if nonBlank remaining then st.1 ++ remaining else st.1

/-- One step of the loop in `NeutralizeAltScreenSequences` (part_004:98-129).
State: (result, lastEnd, inAltScreen). -/
def altStep (content : Str) (clearMs : List (Nat × Nat)) (st : Str × Nat × Bool)
    (me : Nat × Nat) : Str × Nat × Bool :=
  let isEnter := charAt content (me.2 - 1) = 'h'
  if isEnter ∧ ¬ st.2.2 then
    -- find the first clear sequence within [lastEnd, start)
    let stripFrom :=
      match clearMs.find? (fun cm => st.2.1 ≤ cm.1 ∧ cm.2 ≤ me.1) with
      | some cm => cm.1
      | none => me.1
    (st.1 ++ goSlice content st.2.1 stripFrom, me.2, true)
  else if ¬ isEnter ∧ st.2.2 then
    let res :=
      if nonBlank st.1 ∧ nonBlank (content.drop me.2) then st.1 ++ AltScreenSeparator
      else st.1
    (res, me.2, false)
  else (st.1, me.2, st.2.2)

/-- `NeutralizeAltScreenSequences` (part_004:85-138): discard alternate-screen
regions (and the TUI redraw content from the last clear before the enter),
inserting a separator when content exists on both sides. -/
def NeutralizeAltScreenSequences (content : Str) : Str :=
  let altMs := findAll matchAltAt content
  if altMs = [] then content
  else
    let clearMs := findAll matchClearAt content
    let st := altMs.foldl (altStep content clearMs) ([], 0, false)
    if ¬ st.2.2 then st.1 ++ content.drop st.2.1 else st.1

/-- A session-header line (cleaner.go:21): starts with `Script started on`
or `Command:`. -/
def isHeaderLine (l : Str) : Bool :=
  "Script started on".data.isPrefixOf l ∨ "Command:".data.isPrefixOf l

/-- A session-footer marker line (cleaner.go:34-36). -/
def isFooterLine (l : Str) : Bool :=
  "Saving session".data.isPrefixOf l ∨ "Command exit status".data.isPrefixOf l ∨
  "Script done on".data.isPrefixOf l

/-- The header scan of `StripMetadataOnly` (cleaner.go:80-85): over the first
five lines, `startIndex` becomes `i+1` at each header line. -/
def headerStartAux : List Str → Nat → Nat → Nat
  | [], _, acc => acc
  | l :: ls, i, acc =>
    if i < 5 then headerStartAux ls (i + 1) (if isHeaderLine l then i + 1 else acc)
    else acc

/-- The backward footer scan of `StripMetadataOnly` (cleaner.go:87-101),
walking the reversed, index-paired line list; state is
(footerStartIndex, hasFooterMarker); `total` is the number of lines. -/
def footerStartAux (total : Nat) : List (Nat × Str) → Nat → Bool → Nat
  | [], fsi, _ => fsi
  | il :: rest, fsi, hasM =>
    if isFooterLine il.2 then footerStartAux total rest il.1 true
    else if hasM ∧ trimSpace il.2 = [] then footerStartAux total rest il.1 hasM
    else if fsi < total then fsi
    else footerStartAux total rest fsi hasM

/-- The trailing-empty-line trim of `StripMetadataOnly` (cleaner.go:104-106):
decrement `endIndex` while above `startIndex` and the line before it is
whitespace-only. -/
def trimTrailing (lines : List Str) (s : Nat) : Nat → Nat
  | 0 => 0
  | e + 1 =>
    if s < e + 1 ∧ trimSpace (lines.getD e []) = [] then trimTrailing lines s e
    else e + 1

/-- `strings.Split(content, "\n")`. -/
def splitLines (content : Str) : List Str := content.splitOn '\n'

/-- `strings.Join(lines, "\n")`. -/
def joinLines (ls : List Str) : Str := ['\n'].intercalate ls

/-- `StripMetadataOnly` (cleaner.go:74-112): remove the session header and
footer without neutralizing control sequences. -/
def StripMetadataOnly (content : Str) : Str :=
  let lines := splitLines content
  let startIndex := headerStartAux lines 0 0
  let footerStartIndex := footerStartAux lines.length lines.enum.reverse lines.length false
  let endIndex := trimTrailing lines startIndex footerStartIndex
  if startIndex ≥ lines.length ∨ startIndex ≥ endIndex then []
  else joinLines ((lines.take endIndex).drop startIndex)

/-- `StripMetadata` (cleaner.go:11-68): its header/footer logic is verbatim the
body of `StripMetadataOnly`, followed by alternate-screen and then clear
neutralization. -/
def StripMetadata (content : Str) : Str :=
  NeutralizeClearSequences (NeutralizeAltScreenSequences (StripMetadataOnly content))

/-- A preserved source region (offset.go:12-16). -/
structure MappedRegion where
  srcStart : Nat
  srcEnd : Nat
  dstStart : Nat
deriving DecidableEq, Repr

/-- `OffsetMapper` (offset.go:7-10). -/
structure OffsetMapper where
  regions : List MappedRegion
  dstLen : Nat
deriving DecidableEq, Repr

/-- The loop of `OffsetMapper.Map` (offset.go:27-36). -/
def mapAux (off dflt : Nat) : List MappedRegion → Nat
  | [] => dflt
  | r :: rs =>
    if off < r.srcStart then r.dstStart
    else if off < r.srcEnd then r.dstStart + (off - r.srcStart)
    else mapAux off dflt rs

/-- `OffsetMapper.Map` (offset.go:22-40).  Offsets are natural numbers (Go
uses `int`, but every call site passes a cumulative non-negative count). -/
def OffsetMapper.Map (m : OffsetMapper) (srcOffset : Nat) : Nat :=
  if m.regions = [] then 0 else mapAux srcOffset m.dstLen m.regions

/-- `identityMapper` (offset.go:43-48). -/
def identityMapper (contentLen : Nat) : OffsetMapper :=
  ⟨[⟨0, contentLen, 0⟩], contentLen⟩

/-- One step of the loop in `neutralizeClearWithOffsets` (offset.go:146-166).
State: (result, regions, lastEnd). -/
def clearOffStep (content : Str) (st : Str × List MappedRegion × Nat)
    (me : Nat × Nat) : Str × List MappedRegion × Nat :=
  let before := goSlice content st.2.2 me.1
  if nonBlank before then
    let regions := st.2.1 ++ [⟨st.2.2, me.1, st.1.length⟩]
    let res := st.1 ++ before
    let res := if nonBlank (content.drop me.2) then res ++ ClearSeparator else res
    (res, regions, me.2)
  else (st.1, st.2.1, me.2)

/-- `neutralizeClearWithOffsets` (offset.go:136-183). -/
def neutralizeClearWithOffsets (content : Str) : Str × OffsetMapper :=
  let ms := findAll matchClearAt content
  if ms = [] then (content, identityMapper content.length)
  else
    let st := ms.foldl (clearOffStep content) ([], [], 0)
    let remaining := content.drop st.2.2
    if nonBlank remaining then
      let regions := st.2.1 ++ [⟨st.2.2, st.2.2 + remaining.length, st.1.length⟩]
      let res := st.1 ++ remaining
      (res, ⟨regions, res.length⟩)
    else (st.1, ⟨st.2.1, st.1.length⟩)

/-- One step of the loop in `neutralizeAltScreenWithOffsets`
(offset.go:84-117).  State: (result, regions, lastEnd, inAltScreen). -/
def altOffStep (content : Str) (clearMs : List (Nat × Nat))
    (st : Str × List MappedRegion × Nat × Bool) (me : Nat × Nat) :
    Str × List MappedRegion × Nat × Bool :=
  let isEnter := charAt content (me.2 - 1) = 'h'
  if isEnter ∧ ¬ st.2.2.2 then
    let stripFrom :=
      match clearMs.find? (fun cm => st.2.2.1 ≤ cm.1 ∧ cm.2 ≤ me.1) with
      | some cm => cm.1
      | none => me.1
    let before := goSlice content st.2.2.1 stripFrom
    let regions :=
      if before.length > 0 then st.2.1 ++ [⟨st.2.2.1, stripFrom, st.1.length⟩]
      else st.2.1
    (st.1 ++ before, regions, me.2, true)
  else if ¬ isEnter ∧ st.2.2.2 then
    let res :=
      if nonBlank st.1 ∧ nonBlank (content.drop me.2) then st.1 ++ AltScreenSeparator
      else st.1
    (res, st.2.1, me.2, false)
  else (st.1, st.2.1, me.2, st.2.2.2)

/-- `neutralizeAltScreenWithOffsets` (offset.go:71-132). -/
def neutralizeAltScreenWithOffsets (content : Str) : Str × OffsetMapper :=
  let altMs := findAll matchAltAt content
  if altMs = [] then (content, identityMapper content.length)
  else
    let clearMs := findAll matchClearAt content
    let st := altMs.foldl (altOffStep content clearMs) ([], [], 0, false)
    if ¬ st.2.2.2 then
      let remaining := content.drop st.2.2.1
      let regions :=
        if remaining.length > 0 then
          st.2.1 ++ [⟨st.2.2.1, st.2.2.1 + remaining.length, st.1.length⟩]
        else st.2.1
      let res := st.1 ++ remaining
      (res, ⟨regions, res.length⟩)
    else (st.1, ⟨st.2.1, st.1.length⟩)

/-- `NeutralizeAllWithOffsets` (offset.go:54-67): alt-screen pass, then clear
pass, with the two mappers composed. -/
def NeutralizeAllWithOffsets (content : Str) : Str × (Nat → Nat) :=
  let p1 := neutralizeAltScreenWithOffsets content
  let p2 := neutralizeClearWithOffsets p1.1
  (p2.1, fun rawOffset => p2.2.Map (p1.2.Map rawOffset))

end session

namespace timing

/-- `isDigit` (part_002:124-126). -/
def isDigit (b : Char) : Bool := '0' ≤ b ∧ b ≤ '9'

/-- `strconv.Atoi`: optional sign, base-10 digits, must fit in a 64-bit int. -/
def atoi (s : Str) : Option Int :=
  let p : Int × Str :=
    match s with
    | '+' :: t => (1, t)
    | '-' :: t => (-1, t)
    | t => (1, t)
  if p.2 = [] ∨ ¬ p.2.all isDigit then none
  else
    let v : Nat := p.2.foldl (fun a c => a * 10 + (c.toNat - 48)) 0
    let i : Int := p.1 * v
    if -(2 ^ 63) ≤ i ∧ i < 2 ^ 63 then some i else none

/-- At least one decimal digit. -/
def allDigits (l : Str) : Bool := l ≠ [] ∧ l.all isDigit

/-- At least one (lower-cased) hexadecimal digit. -/
def allHex (l : Str) : Bool :=
  l ≠ [] ∧ l.all (fun c => isDigit c ∨ ('a' ≤ c ∧ c ≤ 'f'))

/-- Decimal mantissa: `digits`, `digits.digits?` or `.digits`. -/
def decMant (l : Str) : Bool :=
  match l.splitOn '.' with
  | [a] => allDigits a
  | [a, b] => (allDigits a ∧ (b = [] ∨ allDigits b)) ∨ (a = [] ∧ allDigits b)
  | _ => false

/-- Hexadecimal mantissa, same shape as `decMant`. -/
def hexMant (l : Str) : Bool :=
  match l.splitOn '.' with
  | [a] => allHex a
  | [a, b] => (allHex a ∧ (b = [] ∨ allHex b)) ∨ (a = [] ∧ allHex b)
  | _ => false

/-- Exponent: optional sign then digits. -/
def expPart (l : Str) : Bool :=
  match l with
  | '+' :: r => allDigits r
  | '-' :: r => allDigits r
  | r => allDigits r

/-- The body of a float literal after the optional leading sign,
case-folded. -/
def parseFloatBody (t : Str) : Bool :=
  let low := t.map Char.toLower
  if low = "inf".data ∨ low = "infinity".data ∨ low = "nan".data then true
  else
    match low with
    | '0' :: 'x' :: r =>
      match r.splitOn 'p' with
      | [m, e] => hexMant m ∧ expPart e
      | _ => false
    | _ =>
      match low.splitOn 'e' with
      | [m] => decMant m
      | [m, e] => decMant m ∧ expPart e
      | _ => false

/-- Whether `strconv.ParseFloat` accepts the string: optional sign, then
`inf`/`infinity`/`nan` (any case) or a decimal/hexadecimal mantissa with
optional/required exponent.  (Digit-separating underscores and the
out-of-range error for huge exponents are not modelled; no claim exercises
either.) -/
def parseFloatOk (s : Str) : Bool :=
  match s with
  | [] => false
  | c :: r => if c = '+' ∨ c = '-' then parseFloatBody r else parseFloatBody (c :: r)

/-- `strings.Fields`: the maximal runs of non-whitespace characters. -/
def goFields (l : Str) : List Str := (l.splitOnP goIsSpace).filter (· ≠ [])

/-- `EntryType` constants (part_002:28-33). -/
def Output : Char := 'O'

/-- Input entry type tag. -/
def Input : Char := 'I'

/-- Header entry type tag. -/
def Header : Char := 'H'

/-- Signal entry type tag. -/
def Signal : Char := 'S'

/-- `Entry` (part_002:36-40).  The `Delay float64` field is not modelled: its
value is never consumed by any claim; only its parsability matters, which is
captured by `parseFloatOk` in `parseLine`. -/
structure Entry where
  type : Char
  byteCount : Int
deriving DecidableEq, Repr

/-- `parseLine` (part_002:76-122), applied to an already-trimmed line. -/
def parseLine (line : Str) : Option Entry :=
  let fields := goFields line
  if fields.length < 2 then none
  else
    let f0 := fields.getD 0 []
    if f0.length = 1 ∧ ¬ isDigit (charAt f0 0) then
      let typ := charAt f0 0
      if typ = Header ∨ typ = Signal then
        -- lenient: the delay parse error is discarded (part_002:92)
        some ⟨typ, 0⟩
      else if fields.length < 3 then none
      else if ¬ parseFloatOk (fields.getD 1 []) then none
      else
        match atoi (fields.getD 2 []) with
        | some bc => some ⟨typ, bc⟩
        | none => none
    else if ¬ parseFloatOk (fields.getD 0 []) then none
    else
      match atoi (fields.getD 1 []) with
      | some bc => some ⟨Output, bc⟩
      | none => none

/-- The scanner loop of `Parse` (part_002:50-74); `lineNum` counts lines
already consumed.  The error value is the 1-based line number reported via
`fmt.Errorf("line %d: %w", ...)`. -/
def ParseAux : List Str → Nat → Except Nat (List Entry)
  | [], _ => .ok []
  | l :: ls, lineNum =>
    let line := trimSpace l
    if line = [] then ParseAux ls (lineNum + 1)
    else
      match parseLine line with
      | none => .error (lineNum + 1)
      | some e =>
        match ParseAux ls (lineNum + 1) with
        | .error n => .error n
        | .ok es => .ok (e :: es)

/-- `Parse` (part_002:50-74).  The `io.Reader` plus `bufio.Scanner` input is
modelled as the list of scanned lines (the scanner splits at line feeds; its
carriage-return handling is subsumed by the `TrimSpace` on every line). -/
def Parse (lines : List Str) : Except Nat (List Entry) := ParseAux lines 0

instance {e a : Type} [DecidableEq e] [DecidableEq a] : DecidableEq (Except e a) := fun x y =>
  match x, y with
  | .ok v, .ok w => if h : v = w then .isTrue (by rw [h]) else .isFalse (by simp [h])
  | .error v, .error w => if h : v = w then .isTrue (by rw [h]) else .isFalse (by simp [h])
  | .ok _, .error _ => .isFalse (by simp)
  | .error _, .ok _ => .isFalse (by simp)

/-- `Command` (part_002:43-46). -/
structure Command where
  text : Str
  outputByteOffset : Int
deriving DecidableEq, Repr

/-- A parameter or intermediate byte of a control sequence (0x20-0x3f). -/
def isSeqByte (c : Char) : Bool := 0x20 ≤ c.toNat ∧ c.toNat ≤ 0x3f

/-- A command terminator byte (carriage return or line feed). -/
def isTermByte (c : Char) : Bool := c = '\r' ∨ c = '\n'

/-- The index loop of `stripEscapeSequences` (part_002:237-262) as a mode
machine: mode 0 = ordinary scan, mode 1 = just consumed `ESC`, mode 2 =
inside the parameter bytes of a CSI sequence (the first non-parameter byte is
consumed as the final byte). -/
def stripEscAux : Nat → Str → Str
  | _, [] => []
  | 0, c :: t =>
    if c = esc then stripEscAux 1 t
    else if c.toNat < 0x20 then stripEscAux 0 t
    else c :: stripEscAux 0 t
  | 1, c :: t =>
    if c = '[' then stripEscAux 2 t
    else if c = esc then stripEscAux 1 t
    else if c.toNat < 0x20 then stripEscAux 0 t
    else c :: stripEscAux 0 t
  | 2, c :: t => if isSeqByte c then stripEscAux 2 t else stripEscAux 0 t
  | _ + 3, _ => []

/-- `stripEscapeSequences` (part_002:237-262). -/
def stripEscapeSequences (s : Str) : Str := stripEscAux 0 s

/-- The index loop of `isOnlyEscapeSequences` (part_002:266-292), same mode
machine as `stripEscAux`. -/
def isOnlyEscAux : Nat → Str → Bool
  | _, [] => true
  | 0, c :: t =>
    if c = esc then isOnlyEscAux 1 t
    else if c.toNat < 0x20 then isOnlyEscAux 0 t
    else false
  | 1, c :: t =>
    if c = '[' then isOnlyEscAux 2 t
    else if c = esc then isOnlyEscAux 1 t
    else if c.toNat < 0x20 then isOnlyEscAux 0 t
    else false
  | 2, c :: t => if isSeqByte c then isOnlyEscAux 2 t else isOnlyEscAux 0 t
  | _ + 3, _ => true

/-- `isOnlyEscapeSequences` (part_002:266-292). -/
def isOnlyEscapeSequences (s : Str) : Bool := isOnlyEscAux 0 s

/-- `strings.TrimRight(s, "\r\n")`. -/
def trimRightRN (l : Str) : Str := (l.reverse.dropWhile isTermByte).reverse

/-- `finalizeCommand` (part_002:187-233). -/
def finalizeCommand (input : Str) (outputOffset : Int) : Option Command :=
  if input = [] then none
  else if ¬ isTermByte (input.getLastD ' ') then none
  else
    let text := trimRightRN input
    if text = [] then none
    else if text.length = 1 ∧ (charAt text 0).toNat < 0x20 then none
    else if isOnlyEscapeSequences text then none
    else if text = ['\t'] then none
    else
      let text := stripEscapeSequences text
      if text = [] then none
      else some ⟨text, outputOffset⟩

/-- The mutable state of `ExtractCommands` (part_002:137-141). -/
structure ExtractState where
  commands : List Command
  inputOffset : Nat
  outputOffset : Int
  currentInput : Str
  commandOutputOffset : Int
deriving Repr

/-- The per-byte body of the inner loop of `ExtractCommands`
(part_002:158-168). -/
def consumeByte (st : ExtractState) (b : Char) : ExtractState :=
  let cur := st.currentInput ++ [b]
  if isTermByte b then
    let commands :=
      match finalizeCommand cur st.commandOutputOffset with
      | some cmd => st.commands ++ [cmd]
      | none => st.commands
    { st with commands := commands, currentInput := [] }
  else { st with currentInput := cur }

/-- The per-entry body of `ExtractCommands` (part_002:143-172).  Go computes
`end := inputOffset + ByteCount` clamped to the buffer length; a negative
`ByteCount` would make the Go slice expression panic — modelled as an empty
chunk with an unchanged offset (no recognized timing file produces one). -/
def extractStep (inputContent : Str) (st : ExtractState) (e : Entry) :
    ExtractState :=
  if e.type = Output then { st with outputOffset := st.outputOffset + e.byteCount }
  else if e.type = Input then
    let st :=
      if st.currentInput = [] then { st with commandOutputOffset := st.outputOffset }
      else st
    let endIdx := min (((st.inputOffset : Int) + e.byteCount).toNat) inputContent.length
    let st2 := (goSlice inputContent st.inputOffset endIdx).foldl consumeByte st
    { st2 with inputOffset := max st.inputOffset endIdx }
  else st

/-- `ExtractCommands` (part_002:136-183). -/
def ExtractCommands (entries : List Entry) (inputContent : Str) : List Command :=
  let st := entries.foldl (extractStep inputContent) ⟨[], 0, 0, [], 0⟩
  if st.currentInput ≠ [] then
    match finalizeCommand st.currentInput st.commandOutputOffset with
    | some cmd => st.commands ++ [cmd]
    | none => st.commands
  else st.commands

end timing

namespace toc

/-- `toc.Entry` (part_001:13-16); named `TocEntry` here to keep it distinct
from `timing.Entry`. -/
structure TocEntry where
  label : Str
  line : Nat
deriving DecidableEq, Repr

/-- The clamp in `FromCommands` (part_001:48-51): offsets beyond the content
length count all of it.  (A negative offset would panic in Go when used as an
index; the pipeline only produces cumulative non-negative counts.) -/
def clampOffset (off : Int) (len : Nat) : Nat := (min off (len : Int)).toNat

/-- Number of line-break bytes. -/
def countNL (l : Str) : Nat := l.count '\n'

/-- The sort key of `FromCommands` (part_001:39-41): ascending mapped
offset. -/
def offsetLE (a b : Nat × timing.Command) : Prop :=
  a.2.outputByteOffset ≤ b.2.outputByteOffset

instance : DecidableRel offsetLE := fun a b => by
  unfold offsetLE; infer_instance

instance : IsTotal (Nat × timing.Command) offsetLE :=
  ⟨fun a b => Int.le_total a.2.outputByteOffset b.2.outputByteOffset⟩

instance : IsTrans (Nat × timing.Command) offsetLE :=
  ⟨fun _ _ _ hab hbc => Int.le_trans hab hbc⟩

/-- The loop body of `FromCommands` (part_001:47-62).  Accumulator:
(entries, prevOffset, lineCount); `entries[sc.origIndex] = Entry{...}` is the
in-range list write `List.set`. -/
def fcStep (rawOutput : Str) (st : List TocEntry × Nat × Nat)
    (sc : Nat × timing.Command) : List TocEntry × Nat × Nat :=
  let offset := clampOffset sc.2.outputByteOffset rawOutput.length
  let lineCount := st.2.2 + countNL (goSlice rawOutput st.2.1 offset)
  (st.1.set sc.1 ⟨sc.2.text, lineCount⟩, offset, lineCount)

/-- `FromCommands` (part_001:25-65): sort the index-paired commands by offset
(Go uses the unstable `sort.Slice`; `insertionSort` realizes one admissible
ordering — the entry values are independent of how ties are ordered), then a
single incremental newline-counting pass, scattering each entry back to its
original index in the preallocated (`make([]Entry, len)`) result. -/
def FromCommands (commands : List timing.Command) (rawOutput : Str) :
    List TocEntry :=
  if commands = [] then []
  else
    let sorted := commands.enum.insertionSort offsetLE
    (sorted.foldl (fcStep rawOutput)
      (List.replicate commands.length ⟨[], 0⟩, 0, 0)).1

/-- The entry the TOC builder is claimed to produce for a command: its text,
and the number of line-break bytes strictly before its clamped offset. -/
def expectedEntry (cmd : timing.Command) (rawOutput : Str) : TocEntry :=
  ⟨cmd.text, countNL (rawOutput.take (clampOffset cmd.outputByteOffset rawOutput.length))⟩

end toc

namespace jscleaner

/-- JS `String.prototype.trim` whitespace (WhiteSpace and LineTerminator
productions: TAB LF VT FF CR SP NBSP ZWNBSP, Unicode space separators, LS,
PS). -/
def jsIsSpace (c : Char) : Bool :=
  (9 ≤ c.toNat ∧ c.toNat ≤ 13) ∨ c.toNat = 32 ∨ c.toNat = 0xa0 ∨
  c.toNat = 0xfeff ∨ c.toNat = 0x1680 ∨
  (0x2000 ≤ c.toNat ∧ c.toNat ≤ 0x200a) ∨
  c.toNat = 0x2028 ∨ c.toNat = 0x2029 ∨ c.toNat = 0x202f ∨
  c.toNat = 0x205f ∨ c.toNat = 0x3000

/-- JS `text.trim() !== ''`. -/
def jsNonBlank (l : Str) : Bool := l.any (fun c => ¬ jsIsSpace c)

/-- `stripHeader` (cleaner-core.js:34-52); the scan over the first five lines
is the same loop as the Go header scan. -/
def stripHeader (text : Str) : Str :=
  let lines := session.splitLines text
  let startIndex := session.headerStartAux lines 0 0
  if startIndex = 0 then text
  else session.joinLines (lines.drop startIndex)

/-- The backward footer scan of `stripFooter` (cleaner-core.js:66-84), same
as the Go scan but with the JS blank-line test. -/
def jsFooterStartAux (total : Nat) : List (Nat × Str) → Nat → Bool → Nat
  | [], fsi, _ => fsi
  | il :: rest, fsi, hasM =>
    if session.isFooterLine il.2 then jsFooterStartAux total rest il.1 true
    else if hasM ∧ ¬ jsNonBlank il.2 then jsFooterStartAux total rest il.1 hasM
    else if fsi < total then fsi
    else jsFooterStartAux total rest fsi hasM

/-- The trailing-empty-line trim of `stripFooter` (cleaner-core.js:87-89):
`while (endIndex > 0 && lines[endIndex-1].trim() === '')`. -/
def jsTrimTrailing (lines : List Str) : Nat → Nat
  | 0 => 0
  | e + 1 =>
    if ¬ jsNonBlank (lines.getD e []) then jsTrimTrailing lines e
    else e + 1

/-- `stripFooter` (cleaner-core.js:59-96). -/
def stripFooter (text : Str) : Str :=
  let lines := session.splitLines text
  let footerStartIndex := jsFooterStartAux lines.length lines.enum.reverse lines.length false
  let endIndex := jsTrimTrailing lines footerStartIndex
  if endIndex ≥ lines.length then text
  else session.joinLines (lines.take endIndex)

/-- The cross-chunk clear-sequence state of the streaming cleaner
(cleaner-core.js:117-124). -/
structure ClearState where
  hasEmittedContent : Bool
  pendingSeparator : Bool
  pendingWhitespace : Str
deriving DecidableEq, Repr

/-- One match step of the loop in `processForClears`
(cleaner-core.js:176-201).  Accumulator: (result, lastEnd, state). -/
def clearsStep (text : Str) (acc : Str × Nat × ClearState) (me : Nat × Nat) :
    Str × Nat × ClearState :=
  let before := goSlice text acc.2.1 me.1
  let s := acc.2.2
  let rs :=
    if jsNonBlank before then
      let p :=
        if s.pendingSeparator then
          (acc.1 ++ session.ClearSeparator ++ s.pendingWhitespace,
            { s with pendingSeparator := false, pendingWhitespace := [] })
        else (acc.1, s)
      (p.1 ++ before, { p.2 with hasEmittedContent := true })
    else if s.pendingSeparator then
      (acc.1, { s with pendingWhitespace := s.pendingWhitespace ++ before })
    else (acc.1, s)
  let s2 :=
    if rs.2.hasEmittedContent then
      { rs.2 with pendingSeparator := true, pendingWhitespace := [] }
    else rs.2
  (rs.1, me.2, s2)

/-- `processForClears` (cleaner-core.js:140-219): returns the emitted text and
the updated state. -/
def processForClears (st : ClearState) (text : Str) : Str × ClearState :=
  if text = [] then ([], st)
  else
    let ms := session.findAll session.matchClearAt text
    if ms = [] then
      if jsNonBlank text then
        if st.pendingSeparator then
          (session.ClearSeparator ++ st.pendingWhitespace ++ text,
            ⟨true, false, []⟩)
        else ([] ++ text, { st with hasEmittedContent := true })
      else if st.pendingSeparator then
        ([], { st with pendingWhitespace := st.pendingWhitespace ++ text })
      else (text, st)
    else
      let acc := ms.foldl (clearsStep text) ([], 0, st)
      let remaining := text.drop acc.2.1
      let s := acc.2.2
      if jsNonBlank remaining then
        let p :=
          if s.pendingSeparator then
            (acc.1 ++ session.ClearSeparator ++ s.pendingWhitespace,
              { s with pendingSeparator := false, pendingWhitespace := [] })
          else (acc.1, s)
        (p.1 ++ remaining, { p.2 with hasEmittedContent := true })
      else if remaining ≠ [] ∧ s.pendingSeparator then
        (acc.1, { s with pendingWhitespace := s.pendingWhitespace ++ remaining })
      else (acc.1, s)

/-- The cross-chunk alternate-screen state (cleaner-core.js:126-127). -/
structure AltState where
  inAltScreen : Bool
  altScreenHadContentBefore : Bool
deriving DecidableEq, Repr

/-- `processForAltScreen` (cleaner-core.js:227-289).  The JS function calls
itself on a strict suffix of its argument; the fuel argument (seeded with
more than the text length) makes that recursion structural, and the
fuel-exhaustion branch is unreachable. -/
def processForAltScreen : Nat → AltState → Str → Str × AltState
  | 0, st, _ => ([], st)
  | fuel + 1, st, text =>
    if text = [] then ([], st)
    else if st.inAltScreen then
      let leaves := (session.findAll session.matchAltAt text).filter
        (fun me => charAt text (me.2 - 1) = 'l')
      match leaves with
      | [] => ([], st)
      | firstLeave :: _ =>
        let st := { st with inAltScreen := false }
        let remaining := text.drop firstLeave.2
        let p := processForAltScreen fuel st remaining
        if p.2.altScreenHadContentBefore ∧ jsNonBlank p.1 then
          (session.AltScreenSeparator ++ p.1, p.2)
        else p
    else
      let enters := (session.findAll session.matchAltAt text).filter
        (fun me => charAt text (me.2 - 1) = 'h')
      match enters with
      | [] =>
        if jsNonBlank text then (text, { st with altScreenHadContentBefore := true })
        else (text, st)
      | firstEnter :: _ =>
        let before := text.take firstEnter.1
        let st :=
          if jsNonBlank before then { st with altScreenHadContentBefore := true }
          else st
        let st := { st with inAltScreen := true }
        let p := processForAltScreen fuel st (text.drop firstEnter.2)
        (before ++ p.1, p.2)

/-- The whole mutable closure state of `createStreamingCleaner`
(cleaner-core.js:111-134); `out` is the concatenation of all `onOutput`
payloads. -/
structure StreamState where
  headerBuffer : Str
  headerStripped : Bool
  clearSt : ClearState
  altSt : AltState
  escapeBuffer : Str
  trailingBuffer : Str
  out : Str
deriving Repr

/-- `TRAILING_SIZE` (cleaner-core.js:134). -/
def TRAILING_SIZE : Nat := 500

/-- `HEADER_LINES_THRESHOLD` (cleaner-core.js:115). -/
def HEADER_LINES_THRESHOLD : Nat := 5

/-- JS `text.lastIndexOf('\x1b')` (as an `Option` instead of `-1`). -/
def lastIndexOfEsc (l : Str) : Option Nat :=
  (l.reverse.findIdx? (· = esc)).map (fun j => l.length - 1 - j)

/-- The tail of `write` after header handling (cleaner-core.js:325-339). -/
def writeBody (st : StreamState) (text0 : Str) : StreamState :=
  let text := st.trailingBuffer ++ text0
  let st := { st with trailingBuffer := [] }
  if text.length > TRAILING_SIZE then
    let toEmit := text.take (text.length - TRAILING_SIZE)
    let st := { st with trailingBuffer := text.drop (text.length - TRAILING_SIZE) }
    let pc := processForClears st.clearSt toEmit
    let pa := processForAltScreen (pc.1.length + 1) st.altSt pc.1
    { st with clearSt := pc.2, altSt := pa.2, out := st.out ++ pa.1 }
  else { st with trailingBuffer := text }

/-- `write` (cleaner-core.js:295-339). -/
def write (st : StreamState) (chunk : Str) : StreamState :=
  let text := st.escapeBuffer ++ chunk
  let st := { st with escapeBuffer := [] }
  let p :=
    match lastIndexOfEsc text with
    | some lastEsc =>
      if (lastEsc : Int) > (text.length : Int) - 10 then
        ({ st with escapeBuffer := text.drop lastEsc }, text.take lastEsc)
      else (st, text)
    | none => (st, text)
  let st := p.1
  let text := p.2
  if ¬ st.headerStripped then
    let hb := st.headerBuffer ++ text
    if hb.count '\n' ≥ HEADER_LINES_THRESHOLD then
      writeBody { st with headerStripped := true, headerBuffer := [] } (stripHeader hb)
    else { st with headerBuffer := hb }
  else writeBody st text

/-- `end` (cleaner-core.js:345-362). -/
def endStream (st : StreamState) : StreamState :=
  let text := st.trailingBuffer ++ st.escapeBuffer
  let text := if ¬ st.headerStripped then stripHeader (st.headerBuffer ++ text) else text
  let text := stripFooter text
  let pc := processForClears st.clearSt text
  let pa := processForAltScreen (pc.1.length + 1) st.altSt pc.1
  { st with clearSt := pc.2, altSt := pa.2, out := st.out ++ pa.1 }

/-- The initial closure state of `createStreamingCleaner`. -/
def initState : StreamState := ⟨[], false, ⟨false, false, []⟩, ⟨false, false⟩, [], [], []⟩

/-- Feed the chunks in order to `write`, call `end`, and concatenate every
`onOutput` payload. -/
def runStream (chunks : List Str) : Str :=
  (endStream (chunks.foldl write initState)).out

end jscleaner


namespace timing

/-- A line the parser rejects: non-blank after trimming, and `parseLine`
fails (wrong field count or unparsable number). -/
def badLine (l : Str) : Bool := trimSpace l ≠ [] ∧ (parseLine (trimSpace l)).isNone

/-- The index (0-based, among all lines) of the first malformed line. -/
def firstBad (lines : List Str) : Option Nat := lines.findIdx? badLine

/-- One entry per non-empty line, in file order. -/
def goodEntries (lines : List Str) : List Entry :=
  lines.filterMap (fun l => if trimSpace l = [] then none else parseLine (trimSpace l))

end timing


namespace timing

/-- The in-progress command buffer after consuming the byte sequence `l`: the
bytes after the last terminator. -/
def lastSeg (l : Str) : Str :=
  (l.reverse.takeWhile (fun c => ! isTermByte c)).reverse

end timing


namespace session

/-- Well-formedness check for a region list: starting from source floor `s0`
and destination floor `d0`, the regions are ordered and non-overlapping in
both source and destination; returns the floors after the last region. -/
def chainOK : Nat → Nat → List MappedRegion → Option (Nat × Nat)
  | s0, d0, [] => some (s0, d0)
  | s0, d0, r :: rs =>
    if s0 ≤ r.srcStart ∧ r.srcStart ≤ r.srcEnd ∧ d0 ≤ r.dstStart then
      chainOK r.srcEnd (r.dstStart + (r.srcEnd - r.srcStart)) rs
    else none

/-- Ordered, non-overlapping, in-bounds match spans (the shape every scanner
result has). -/
def MatchesOK : Nat → Nat → List (Nat × Nat) → Prop
  | _, _, [] => True
  | lo, hi, me :: ms => lo ≤ me.1 ∧ me.1 ≤ me.2 ∧ me.2 ≤ hi ∧ MatchesOK me.2 hi ms

end session


namespace session

/-- A well-formed mapper: its regions chain from the origin and their
destination spans fit inside `dstLen`. -/
def MapperWF (m : OffsetMapper) : Prop :=
  ∃ s1 d1, chainOK 0 0 m.regions = some (s1, d1) ∧ d1 ≤ m.dstLen

end session

/-! ## Claim theorems -/

set_option maxRecDepth 10000

/-- The C1 failing input: plain content, a clear sequence, more content, an
alternate-screen region, trailing content. -/
def c1input : Str := "before\x1b[2Jmid\x1b[?1049hX\x1b[?1049lafter".data

/-- C1: FALSIFIED.  The claim states that for every input and every chunk
partition, the concatenated streaming-cleaner output equals the batch
normalization.  It fails already for the whole-input-as-one-chunk partition of
`c1input`: the batch pipeline (`StripMetadata`) runs alt-screen neutralization
first, so the clear sequence before the enter marks TUI redraw content and
everything from the clear through the leave is discarded; the streaming
cleaner (`cleaner-core.js`) runs clear neutralization first, which consumes
the clear as a separator and keeps `mid`.  The spec calls chunk-boundary
equivalence with the batch semantics the defining correctness property, so
the code, not the claim, is wrong. -/
theorem c1_streaming_diverges_from_batch :
    session.StripMetadata c1input =
      "before".data ++ session.AltScreenSeparator ++ "after".data ∧
    jscleaner.runStream [c1input] =
      "before".data ++ session.ClearSeparator ++ "mid".data ++
        session.AltScreenSeparator ++ "after".data ∧
    jscleaner.runStream [c1input] ≠ session.StripMetadata c1input :=
  ⟨by decide, by decide, by decide⟩

/-- The C8 counterexample input: content whose lines include footer-marker
text. -/
def c8input : Str := "a\nSaving session\nb\nSaving session".data

/-- C8 counterexample: `StripMetadataOnly` is not idempotent.  The first pass
strips from the final footer marker, leaving an interior `Saving session`
line; a second pass treats that line as the footer and strips from it. -/
theorem c8_strip_metadata_only_not_idempotent :
    session.StripMetadataOnly c8input = "a\nSaving session\nb".data ∧
    session.StripMetadataOnly (session.StripMetadataOnly c8input) = "a".data ∧
    session.StripMetadataOnly (session.StripMetadataOnly c8input) ≠
      session.StripMetadataOnly c8input :=
  ⟨by decide, by decide, by decide⟩

/-- The loop invariant behind C6: `ParseAux` from any running line count. -/
theorem parseAux_characterization (lines : List Str) :
    ∀ n, timing.ParseAux lines n =
      match lines.findIdx? timing.badLine n with
      | some j => .error (j + 1)
      | none => .ok (timing.goodEntries lines) := by
  induction lines with
  | nil => intro n; simp [timing.ParseAux, timing.goodEntries]
  | cons l ls ih =>
    intro n
    simp only [timing.ParseAux, List.findIdx?_cons]
    by_cases hb : trimSpace l = []
    · have hbad : timing.badLine l = false := by simp [timing.badLine, hb]
      rw [if_pos hb, hbad, ih (n + 1)]
      simp [timing.goodEntries, hb]
    · rw [if_neg hb]
      cases hp : timing.parseLine (trimSpace l) with
      | none =>
        have hbad : timing.badLine l = true := by simp [timing.badLine, hb, hp]
        rw [hbad]
        simp
      | some e =>
        have hbad : timing.badLine l = false := by simp [timing.badLine, hb, hp]
        rw [hbad, ih (n + 1)]
        cases hf : ls.findIdx? timing.badLine (n + 1) <;>
          simp [timing.goodEntries, hb, hp, hf]

/-- C6: for every timing log (modelled as its list of lines), if any line is
malformed the parser returns an error carrying the 1-based line number of the
(first) malformed line and no entries at all; otherwise it returns exactly one
entry per non-empty line, in file order. -/
theorem c6_parse_characterization (lines : List Str) :
    timing.Parse lines =
      match timing.firstBad lines with
      | some j => .error (j + 1)
      | none => .ok (timing.goodEntries lines) := by
  rw [timing.Parse, parseAux_characterization lines 0, timing.firstBad]

/-- Go slice `s[a:b]` is empty when `b ≤ a`. -/
theorem goSlice_nil_of_le (l : Str) (a b : Nat) (h : b ≤ a) : goSlice l a b = [] := by
  apply List.drop_eq_nil_of_le
  calc (l.take b).length ≤ b := by simp [List.length_take]
    _ ≤ a := h

/-- Peel the first element off a Go slice. -/
theorem goSlice_cons (l : Str) (a b : Nat) (hab : a < b) (hb : b ≤ l.length) :
    goSlice l a b = l.getD a ' ' :: goSlice l (a + 1) b := by
  unfold goSlice
  have ha : a < (l.take b).length := by simp [List.length_take]; omega
  rw [List.drop_eq_getElem_cons ha, List.getElem_take,
    List.getD_eq_getElem l ' ' (by omega)]

/-- `take (a+1)` appends the element at index `a`. -/
theorem take_succ_getD (l : Str) (a : Nat) (ha : a < l.length) :
    l.take (a + 1) = l.take a ++ [l.getD a ' '] := by
  rw [List.getD_eq_getElem l ' ' ha, List.take_succ, List.getElem?_eq_getElem ha]
  simp

/-- Appending one byte to a segment buffer: a terminator clears it. -/
theorem lastSeg_append_single (l : Str) (b : Char) :
    timing.lastSeg (l ++ [b]) =
      if timing.isTermByte b then [] else timing.lastSeg l ++ [b] := by
  unfold timing.lastSeg
  rw [List.reverse_append]
  simp only [List.reverse_cons, List.reverse_nil, List.nil_append,
    List.singleton_append, List.takeWhile_cons]
  by_cases h : timing.isTermByte b <;> simp [h]

/-- The segment buffer never contains a terminator. -/
theorem lastSeg_termFree (l : Str) : ∀ c ∈ timing.lastSeg l, ¬ timing.isTermByte c := by
  intro c hc
  unfold timing.lastSeg at hc
  rw [List.mem_reverse] at hc
  simpa using List.mem_takeWhile_imp hc

/-- `finalizeCommand` rejects any buffer with no terminator byte. -/
theorem finalizeCommand_none_of_termFree (l : Str)
    (h : ∀ c ∈ l, ¬ timing.isTermByte c) (o : Int) :
    timing.finalizeCommand l o = none := by
  unfold timing.finalizeCommand
  rcases eq_or_ne l [] with rfl | hne
  · simp
  · rw [if_neg hne, if_pos]
    rw [List.getLastD_eq_getLast?, List.getLast?_eq_getLast l hne]
    exact h _ (List.getLast_mem hne)

/-- Whether `finalizeCommand` rejects a buffer does not depend on the
offset. -/
theorem finalizeCommand_none_iff (l : Str) (o : Int) :
    (timing.finalizeCommand l o = none) ↔ (timing.finalizeCommand l 0 = none) := by
  unfold timing.finalizeCommand
  split_ifs <;> simp

/-- One byte of the inner loop of `ExtractCommands` keeps the invariant:
no commands emitted, segment buffer tracks the consumed prefix. -/
theorem consumeByte_invariant (input : Str) (a : Nat) (ha : a < input.length)
    (H : timing.isTermByte (input.getD a ' ') →
      timing.finalizeCommand (timing.lastSeg (input.take a) ++ [input.getD a ' ']) 0 = none)
    (st : timing.ExtractState)
    (hc : st.commands = []) (hcur : st.currentInput = timing.lastSeg (input.take a)) :
    (timing.consumeByte st (input.getD a ' ')).commands = [] ∧
    (timing.consumeByte st (input.getD a ' ')).currentInput =
      timing.lastSeg (input.take (a + 1)) ∧
    (timing.consumeByte st (input.getD a ' ')).inputOffset = st.inputOffset ∧
    (timing.consumeByte st (input.getD a ' ')).outputOffset = st.outputOffset ∧
    (timing.consumeByte st (input.getD a ' ')).commandOutputOffset =
      st.commandOutputOffset := by
  have hgd : input.getD a ' ' = input[a] := List.getD_eq_getElem input ' ' ha
  have htake := take_succ_getD input a ha
  rw [hgd] at htake H ⊢
  unfold timing.consumeByte
  by_cases ht : timing.isTermByte input[a]
  · have hfin : timing.finalizeCommand (st.currentInput ++ [input[a]])
        st.commandOutputOffset = none := by
      rw [hcur, finalizeCommand_none_iff]
      exact H ht
    rw [htake, lastSeg_append_single, if_pos ht]
    simp only [timing.consumeByte, ht, if_pos rfl, hfin]
    refine ⟨hc, ?_, ?_, ?_, ?_⟩ <;> simp
  · simp only [timing.consumeByte, Bool.not_eq_true] at ht ⊢
    rw [htake, lastSeg_append_single]
    simp only [timing.consumeByte, ht, Bool.false_eq_true, if_false]
    refine ⟨hc, ?_, ?_, ?_, ?_⟩ <;> simp [hcur, ht]

/-- The inner loop of `ExtractCommands` over a chunk keeps the invariant. -/
theorem consume_chunk (input : Str)
    (H : ∀ j, j < input.length → timing.isTermByte (input.getD j ' ') →
      timing.finalizeCommand (timing.lastSeg (input.take j) ++ [input.getD j ' ']) 0 = none) :
    ∀ k a (st : timing.ExtractState), a + k ≤ input.length →
      st.commands = [] → st.currentInput = timing.lastSeg (input.take a) →
      ((goSlice input a (a + k)).foldl timing.consumeByte st).commands = [] ∧
      ((goSlice input a (a + k)).foldl timing.consumeByte st).currentInput =
        timing.lastSeg (input.take (a + k)) ∧
      ((goSlice input a (a + k)).foldl timing.consumeByte st).inputOffset = st.inputOffset ∧
      ((goSlice input a (a + k)).foldl timing.consumeByte st).outputOffset = st.outputOffset ∧
      ((goSlice input a (a + k)).foldl timing.consumeByte st).commandOutputOffset =
        st.commandOutputOffset := by
  intro k
  induction k with
  | zero =>
    intro a st _ hc hcur
    rw [Nat.add_zero, goSlice_nil_of_le input a a le_rfl]
    exact ⟨hc, hcur, rfl, rfl, rfl⟩
  | succ k ih =>
    intro a st hlen hc hcur
    have ha : a < input.length := by omega
    rw [goSlice_cons input a (a + (k + 1)) (by omega) hlen, List.foldl_cons]
    obtain ⟨h1, h2, h3, h4, h5⟩ :=
      consumeByte_invariant input a ha (H a ha) st hc hcur
    have hrec := ih (a + 1) (timing.consumeByte st (input.getD a ' '))
      (by omega) h1 h2
    rw [show a + 1 + k = a + (k + 1) by omega] at hrec
    obtain ⟨g1, g2, g3, g4, g5⟩ := hrec
    exact ⟨g1, g2, by rw [g3, h3], by rw [g4, h4], by rw [g5, h5]⟩

/-- One entry of `ExtractCommands` keeps the invariant. -/
theorem extractStep_one (input : Str)
    (H : ∀ j, j < input.length → timing.isTermByte (input.getD j ' ') →
      timing.finalizeCommand (timing.lastSeg (input.take j) ++ [input.getD j ' ']) 0 = none)
    (e : timing.Entry) (st : timing.ExtractState)
    (hc : st.commands = []) (hlen : st.inputOffset ≤ input.length)
    (hcur : st.currentInput = timing.lastSeg (input.take st.inputOffset)) :
    (timing.extractStep input st e).commands = [] ∧
    (timing.extractStep input st e).inputOffset ≤ input.length ∧
    (timing.extractStep input st e).currentInput =
      timing.lastSeg (input.take ((timing.extractStep input st e).inputOffset)) := by
  unfold timing.extractStep
  by_cases hO : e.type = timing.Output
  · simp [hO, hc, hlen, hcur]
  · by_cases hI : e.type = timing.Input
    · rw [if_neg hO, if_pos hI]
      dsimp only
      set st1 := if st.currentInput = [] then
          { st with commandOutputOffset := st.outputOffset } else st with hst1
      have h1c : st1.commands = [] := by
        rw [hst1]; split_ifs <;> simp [hc]
      have h1o : st1.inputOffset = st.inputOffset := by
        rw [hst1]; split_ifs <;> simp
      have h1cur : st1.currentInput = st.currentInput := by
        rw [hst1]; split_ifs with h <;> simp [h]
      set endIdx := min (((st1.inputOffset : Int) + e.byteCount).toNat) input.length
        with hend
      have hendle : endIdx ≤ input.length := by rw [hend]; exact min_le_right _ _
      by_cases hcase : st1.inputOffset < endIdx
      · have hchunk := consume_chunk input H (endIdx - st1.inputOffset) st1.inputOffset
          st1 (by omega) h1c (by rw [h1cur, h1o, hcur])
        rw [show st1.inputOffset + (endIdx - st1.inputOffset) = endIdx by omega] at hchunk
        obtain ⟨g1, g2, g3, -, -⟩ := hchunk
        have hmax : max st1.inputOffset endIdx = endIdx := by omega
        exact ⟨g1, by simpa [hmax] using hendle, by simp [hmax, g2, g3]⟩
      · have hnil : goSlice input st1.inputOffset endIdx = [] :=
          goSlice_nil_of_le _ _ _ (by omega)
        rw [hnil]
        have hmax : max st1.inputOffset endIdx = st1.inputOffset := by omega
        simp only [List.foldl_nil, hmax]
        exact ⟨h1c, by rw [h1o]; exact hlen, by rw [h1cur, h1o, hcur]⟩
    · simp [hO, hI, hc, hlen, hcur]

/-- The whole per-entry loop of `ExtractCommands` keeps the invariant. -/
theorem extractStep_invariant (input : Str)
    (H : ∀ j, j < input.length → timing.isTermByte (input.getD j ' ') →
      timing.finalizeCommand (timing.lastSeg (input.take j) ++ [input.getD j ' ']) 0 = none)
    (entries : List timing.Entry) :
    ∀ st : timing.ExtractState, st.commands = [] → st.inputOffset ≤ input.length →
      st.currentInput = timing.lastSeg (input.take st.inputOffset) →
      (entries.foldl (timing.extractStep input) st).commands = [] ∧
      (entries.foldl (timing.extractStep input) st).inputOffset ≤ input.length ∧
      (entries.foldl (timing.extractStep input) st).currentInput =
        timing.lastSeg (input.take ((entries.foldl (timing.extractStep input) st).inputOffset)) := by
  induction entries with
  | nil => intro st hc hlen hcur; exact ⟨hc, hlen, hcur⟩
  | cons e es ih =>
    intro st hc hlen hcur
    rw [List.foldl_cons]
    obtain ⟨h1, h2, h3⟩ := extractStep_one input H e st hc hlen hcur
    exact ih _ h1 h2 h3

/-- If every terminator-ending segment of the keystroke buffer is rejected by
`finalizeCommand`, extraction emits no commands, whatever the entries are. -/
theorem extractCommands_nil (entries : List timing.Entry) (input : Str)
    (H : ∀ j, j < input.length → timing.isTermByte (input.getD j ' ') →
      timing.finalizeCommand (timing.lastSeg (input.take j) ++ [input.getD j ' ']) 0 = none) :
    timing.ExtractCommands entries input = [] := by
  unfold timing.ExtractCommands
  obtain ⟨h1, -, h3⟩ := extractStep_invariant input H entries ⟨[], 0, 0, [], 0⟩
    rfl (by simp) (by simp [timing.lastSeg])
  set stf := entries.foldl (timing.extractStep input) ⟨[], 0, 0, [], 0⟩
  by_cases hne : stf.currentInput = []
  · simp [hne, h1]
  · rw [if_pos hne]
    have hfin : timing.finalizeCommand stf.currentInput stf.commandOutputOffset = none := by
      apply finalizeCommand_none_of_termFree
      rw [h3]
      exact lastSeg_termFree _
    simp [hfin, h1]

/-- C7: for every timing-entry sequence, command extraction emits zero
commands when the typed keystroke buffer is a single Ctrl-C (0x03) followed by
carriage-return, an arrow-key escape sequence followed by carriage-return, a
lone tab followed by a terminator, or any buffer with no carriage-return or
line-feed byte at all. -/
theorem c7_filtered_inputs_yield_no_commands (entries : List timing.Entry) :
    (timing.ExtractCommands entries ['\x03', '\r'] = [] ∧
      timing.ExtractCommands entries ['\x1b', '[', 'A', '\r'] = [] ∧
      timing.ExtractCommands entries ['\x1b', '[', 'B', '\r'] = [] ∧
      timing.ExtractCommands entries ['\x1b', '[', 'C', '\r'] = [] ∧
      timing.ExtractCommands entries ['\x1b', '[', 'D', '\r'] = [] ∧
      timing.ExtractCommands entries ['\t', '\r'] = [] ∧
      timing.ExtractCommands entries ['\t', '\n'] = []) ∧
    ∀ input : Str, (∀ b ∈ input, ¬ timing.isTermByte b) →
      timing.ExtractCommands entries input = [] := by
  constructor
  · refine ⟨?_, ?_, ?_, ?_, ?_, ?_, ?_⟩ <;>
      exact extractCommands_nil entries _ (by decide)
  · intro input hin
    apply extractCommands_nil
    intro j hj ht
    refine absurd ht (hin _ ?_)
    rw [List.getD_eq_getElem input ' ' hj]
    exact List.getElem_mem hj

/-- Witness for C7: applies the theorem at a concrete entry list, to the
Ctrl-C case and to a terminator-free buffer. -/
theorem c7_filtered_inputs_witness :
    timing.ExtractCommands [⟨'O', 20⟩, ⟨'I', 2⟩] ['\x03', '\r'] = [] ∧
    timing.ExtractCommands [⟨'O', 20⟩, ⟨'I', 2⟩] "ls".data = [] :=
  ⟨(c7_filtered_inputs_yield_no_commands [⟨'O', 20⟩, ⟨'I', 2⟩]).1.1,
    (c7_filtered_inputs_yield_no_commands [⟨'O', 20⟩, ⟨'I', 2⟩]).2 "ls".data (by decide)⟩

/-- `getD` after an in-range write at the same index. -/
theorem getD_set_self {α : Type} (l : List α) (i : Nat) (v d : α) (h : i < l.length) :
    (l.set i v).getD i d = v := by
  rw [List.getD_eq_getElem _ _ (by simpa using h), List.getElem_set_self]

/-- `getD` after a write at a different index. -/
theorem getD_set_ne {α : Type} (l : List α) (i j : Nat) (v d : α) (h : i ≠ j) :
    (l.set i v).getD j d = l.getD j d := by
  by_cases hj : j < l.length
  · rw [List.getD_eq_getElem _ _ (by simpa using hj), List.getD_eq_getElem _ _ hj,
      List.getElem_set_ne h]
  · rw [List.getD_eq_default _ _ (by simpa using Nat.le_of_not_lt hj),
      List.getD_eq_default _ _ (Nat.le_of_not_lt hj)]

/-- The clamp is monotone in the offset. -/
theorem clampOffset_mono {a b : Int} (len : Nat) (h : a ≤ b) :
    toc.clampOffset a len ≤ toc.clampOffset b len := by
  unfold toc.clampOffset
  omega

/-- Newline counts accumulate across a slice boundary. -/
theorem countNL_take_add (l : Str) (a b : Nat) (hab : a ≤ b) :
    toc.countNL (l.take b) = toc.countNL (l.take a) + toc.countNL (goSlice l a b) := by
  have h2 : l.take b = l.take a ++ goSlice l a b := by
    unfold goSlice
    conv_lhs => rw [← List.take_append_drop a (l.take b)]
    congr 1
    rw [List.take_take, Nat.min_eq_left hab]
  rw [h2]
  unfold toc.countNL
  rw [List.count_append]

/-- The single-pass fold of `FromCommands` writes each command's expected
entry at its original index and touches nothing else. -/
theorem fcFold_invariant (rawOutput : Str) :
    ∀ (l : List (Nat × timing.Command)) (arr : List toc.TocEntry) (prev : Nat),
      prev ≤ rawOutput.length →
      (∀ p ∈ l, prev ≤ toc.clampOffset p.2.outputByteOffset rawOutput.length) →
      l.Pairwise toc.offsetLE →
      (l.map Prod.fst).Nodup →
      (∀ p ∈ l, p.1 < arr.length) →
      ((l.foldl (toc.fcStep rawOutput)
          (arr, prev, toc.countNL (rawOutput.take prev))).1.length = arr.length) ∧
      (∀ i, i ∉ l.map Prod.fst →
        (l.foldl (toc.fcStep rawOutput)
          (arr, prev, toc.countNL (rawOutput.take prev))).1.getD i ⟨[], 0⟩ =
          arr.getD i ⟨[], 0⟩) ∧
      (∀ p ∈ l,
        (l.foldl (toc.fcStep rawOutput)
          (arr, prev, toc.countNL (rawOutput.take prev))).1.getD p.1 ⟨[], 0⟩ =
          toc.expectedEntry p.2 rawOutput) := by
  intro l
  induction l with
  | nil =>
    intro arr prev _ _ _ _ _
    exact ⟨rfl, fun i _ => rfl, fun p hp => absurd hp (List.not_mem_nil p)⟩
  | cons p l ih =>
    intro arr prev hprev hlb hpair hnod hbound
    rw [List.foldl_cons]
    have hpo : prev ≤ toc.clampOffset p.2.outputByteOffset rawOutput.length :=
      hlb p (List.mem_cons_self p l)
    have hol : toc.clampOffset p.2.outputByteOffset rawOutput.length ≤ rawOutput.length := by
      unfold toc.clampOffset; omega
    have hstep : toc.fcStep rawOutput (arr, prev, toc.countNL (rawOutput.take prev)) p =
        (arr.set p.1 (toc.expectedEntry p.2 rawOutput),
          toc.clampOffset p.2.outputByteOffset rawOutput.length,
          toc.countNL (rawOutput.take
            (toc.clampOffset p.2.outputByteOffset rawOutput.length))) := by
      unfold toc.fcStep toc.expectedEntry
      dsimp only
      rw [← countNL_take_add rawOutput prev _ hpo]
    rw [hstep]
    rw [List.map_cons] at hnod
    have hnod' := List.nodup_cons.mp hnod
    have hrec := ih (arr.set p.1 (toc.expectedEntry p.2 rawOutput))
      (toc.clampOffset p.2.outputByteOffset rawOutput.length) hol
      (fun q hq => clampOffset_mono rawOutput.length
        ((List.pairwise_cons.mp hpair).1 q hq))
      (List.pairwise_cons.mp hpair).2
      hnod'.2
      (fun q hq => by rw [List.length_set]; exact hbound q (List.mem_cons_of_mem p hq))
    obtain ⟨g1, g2, g3⟩ := hrec
    refine ⟨by rw [g1, List.length_set], ?_, ?_⟩
    · intro i hi
      rw [List.map_cons, List.mem_cons, not_or] at hi
      rw [g2 i hi.2, getD_set_ne _ _ _ _ _ (Ne.symm hi.1)]
    · intro q hq
      rcases List.mem_cons.mp hq with rfl | hq'
      · rw [g2 q.1 hnod'.1, getD_set_self _ _ _ _ (hbound q (List.mem_cons_self q l))]
      · exact g3 q hq'

/-- C3: for every non-empty command list and content, the TOC builder returns
one entry per command, in the original command order, where each command's
entry carries its text and a line equal to the number of line-break bytes in
the content strictly before its (clamped-to-content-length) offset — offsets
beyond the content length thus receive the total line-break count.  The
offsets are the already-mapped offsets `BuildTOC` passes in.  The single
incremental pass over the sorted commands provably computes exactly this
per-command value. -/
theorem c3_toc_builder_lines (commands : List timing.Command) (rawOutput : Str)
    (hne : commands ≠ []) :
    (toc.FromCommands commands rawOutput).length = commands.length ∧
    ∀ i, i < commands.length →
      (toc.FromCommands commands rawOutput).getD i ⟨[], 0⟩ =
        toc.expectedEntry (commands.getD i ⟨[], 0⟩) rawOutput := by
  unfold toc.FromCommands
  rw [if_neg hne]
  dsimp only
  have hperm : (commands.enum.insertionSort toc.offsetLE).Perm commands.enum :=
    List.perm_insertionSort _ _
  have hpair : (commands.enum.insertionSort toc.offsetLE).Pairwise toc.offsetLE :=
    List.sorted_insertionSort toc.offsetLE commands.enum
  have hnod : ((commands.enum.insertionSort toc.offsetLE).map Prod.fst).Nodup := by
    have hp2 := hperm.map Prod.fst
    rw [List.enum_map_fst] at hp2
    exact hp2.nodup_iff.mpr (List.nodup_range _)
  have hmem : ∀ p ∈ commands.enum.insertionSort toc.offsetLE,
      p.1 < commands.length ∧ p.2 = commands.getD p.1 ⟨[], 0⟩ := by
    intro p hp
    obtain ⟨j, hj, hje⟩ := List.getElem_of_mem (hperm.mem_iff.mp hp)
    rw [List.getElem_enum] at hje
    have hjlen : j < commands.length := by simpa using hj
    refine ⟨by rw [← hje]; exact hjlen, ?_⟩
    rw [← hje]
    dsimp only
    rw [List.getD_eq_getElem _ _ hjlen]
  have h0 : toc.countNL (rawOutput.take 0) = 0 := rfl
  have hinv := fcFold_invariant rawOutput (commands.enum.insertionSort toc.offsetLE)
    (List.replicate commands.length ⟨[], 0⟩) 0 (Nat.zero_le _)
    (fun p _ => Nat.zero_le _) hpair hnod
    (fun p hp => by rw [List.length_replicate]; exact (hmem p hp).1)
  rw [h0] at hinv
  obtain ⟨g1, -, g3⟩ := hinv
  refine ⟨by rw [g1, List.length_replicate], ?_⟩
  intro i hilen
  have hpmem : (i, commands.getD i ⟨[], 0⟩) ∈ commands.enum.insertionSort toc.offsetLE := by
    apply hperm.mem_iff.mpr
    have hilen2 : i < commands.enum.length := by simpa using hilen
    have hg : commands.enum.get ⟨i, hilen2⟩ = (i, commands[i]) := by
      simp [List.getElem_enum]
    rw [List.getD_eq_getElem _ _ hilen, ← hg]
    exact List.get_mem _ _ _
  exact g3 (i, commands.getD i ⟨[], 0⟩) hpmem

/-- Witness for C3 at the spec's end-to-end scenario (offsets 2 and 26). -/
theorem c3_toc_builder_witness :
    (toc.FromCommands [⟨"ls".data, 2⟩, ⟨"npm test".data, 26⟩]
      "$ \nls output\nfile1\nfile2\n$ \nnpm test output\nPASS\n".data).getD 1 ⟨[], 0⟩ =
      toc.expectedEntry (⟨"npm test".data, 26⟩ : timing.Command)
        "$ \nls output\nfile1\nfile2\n$ \nnpm test output\nPASS\n".data := by
  have := (c3_toc_builder_lines [⟨"ls".data, 2⟩, ⟨"npm test".data, 26⟩]
    "$ \nls output\nfile1\nfile2\n$ \nnpm test output\nPASS\n".data (by decide)).2 1 (by decide)
  simpa using this

/-- Weaken the lower bound of `MatchesOK`. -/
theorem matchesOK_mono_lo {lo lo' hi : Nat} {ms : List (Nat × Nat)}
    (h : session.MatchesOK lo hi ms) (hlo : lo' ≤ lo) : session.MatchesOK lo' hi ms := by
  cases ms with
  | nil => trivial
  | cons me ms => exact ⟨le_trans hlo h.1, h.2.1, h.2.2⟩

/-- Every span of an OK match list is within bounds. -/
theorem matchesOK_mem {lo hi : Nat} {ms : List (Nat × Nat)}
    (h : session.MatchesOK lo hi ms) : ∀ p ∈ ms, lo ≤ p.1 ∧ p.1 ≤ p.2 ∧ p.2 ≤ hi := by
  induction ms generalizing lo with
  | nil => intro p hp; exact absurd hp (List.not_mem_nil p)
  | cons me ms ih =>
    intro p hp
    rcases List.mem_cons.mp hp with rfl | hp'
    · exact ⟨h.1, h.2.1, h.2.2.1⟩
    · have := ih h.2.2.2 p hp'
      exact ⟨le_trans (le_trans h.1 h.2.1) this.1, this.2⟩

/-- A matcher that only ever reports matches no longer than its input. -/
theorem matchClearAt_length {l : Str} {n : Nat} (h : session.matchClearAt l = some n) :
    n ≤ l.length := by
  unfold session.matchClearAt at h
  cases hf : session.clearStrings.find? (fun c => c.isPrefixOf l) with
  | none => rw [hf] at h; simp at h
  | some c =>
    rw [hf] at h
    have hlen : c.length = n := by simpa using h
    have hpre : c.isPrefixOf l := by simpa using List.find?_some hf
    have := (List.isPrefixOf_iff_prefix.mp hpre).length_le
    omega

/-- Same for the alternate-screen matcher. -/
theorem matchAltAt_length {l : Str} {n : Nat} (h : session.matchAltAt l = some n) :
    n ≤ l.length := by
  unfold session.matchAltAt at h
  cases hf : session.altStrings.find? (fun c => c.isPrefixOf l) with
  | none => rw [hf] at h; simp at h
  | some c =>
    rw [hf] at h
    have hlen : c.length = n := by simpa using h
    have hpre : c.isPrefixOf l := by simpa using List.find?_some hf
    have := (List.isPrefixOf_iff_prefix.mp hpre).length_le
    omega

/-- The scanner produces ordered, non-overlapping, in-bounds spans. -/
theorem findAllAux_matchesOK (m : Str → Option Nat)
    (hm : ∀ l n, m l = some n → n ≤ l.length) :
    ∀ (l : Str) (pos k : Nat),
      session.MatchesOK (pos + k) (pos + l.length) (session.findAllAux m l pos k) := by
  intro l
  induction l with
  | nil => intro pos k; rw [session.findAllAux]; trivial
  | cons c t ih =>
    intro pos k
    cases k with
    | succ k' =>
      rw [session.findAllAux]
      have h := ih (pos + 1) k'
      rw [show pos + 1 + k' = pos + (k' + 1) from by omega,
        show pos + 1 + t.length = pos + (c :: t).length from by simp; omega] at h
      exact h
    | zero =>
      rw [session.findAllAux]
      cases hm' : m (c :: t) with
      | none =>
        have h := ih (pos + 1) 0
        rw [Nat.add_zero, show pos + 1 + t.length = pos + (c :: t).length from by simp; omega] at h
        exact matchesOK_mono_lo h (by omega)
      | some n =>
        have hn := hm (c :: t) n hm'
        rw [List.length_cons] at hn
        have h := ih (pos + 1) (n - 1)
        rw [show pos + 1 + t.length = pos + (c :: t).length from by simp; omega] at h
        exact ⟨by omega, by omega, by simp; omega, matchesOK_mono_lo h (by omega)⟩

/-- The floors returned by `chainOK` only grow. -/
theorem chainOK_ge {regs : List session.MappedRegion} :
    ∀ {s0 d0 s1 d1 : Nat}, session.chainOK s0 d0 regs = some (s1, d1) →
      s0 ≤ s1 ∧ d0 ≤ d1 := by
  induction regs with
  | nil => intro s0 d0 s1 d1 h; rw [session.chainOK] at h; injection h with h; injection h with h1 h2; omega
  | cons r rs ih =>
    intro s0 d0 s1 d1 h
    rw [session.chainOK] at h
    split_ifs at h with hc
    have := ih h
    omega

/-- Every region of a chained list lies above the source floor. -/
theorem chainOK_mem {regs : List session.MappedRegion} :
    ∀ {s0 d0 s1 d1 : Nat}, session.chainOK s0 d0 regs = some (s1, d1) →
      ∀ r ∈ regs, s0 ≤ r.srcStart ∧ r.srcStart ≤ r.srcEnd := by
  induction regs with
  | nil => intro _ _ _ _ _ r hr; exact absurd hr (List.not_mem_nil r)
  | cons q rs ih =>
    intro s0 d0 s1 d1 h r hr
    rw [session.chainOK] at h
    split_ifs at h with hc
    rcases List.mem_cons.mp hr with rfl | hr'
    · exact ⟨hc.1, hc.2.1⟩
    · have := ih h r hr'
      omega

/-- Append a region to a chained list. -/
theorem chainOK_snoc (regs : List session.MappedRegion) (r : session.MappedRegion) :
    ∀ {s0 d0 s1 d1 : Nat}, session.chainOK s0 d0 regs = some (s1, d1) →
      s1 ≤ r.srcStart → r.srcStart ≤ r.srcEnd → d1 ≤ r.dstStart →
      session.chainOK s0 d0 (regs ++ [r]) =
        some (r.srcEnd, r.dstStart + (r.srcEnd - r.srcStart)) := by
  induction regs with
  | nil =>
    intro s0 d0 s1 d1 h h1 h2 h3
    rw [session.chainOK] at h
    injection h with h; injection h with he1 he2
    subst he1; subst he2
    rw [List.nil_append, session.chainOK, if_pos ⟨h1, h2, h3⟩, session.chainOK]
  | cons q rs ih =>
    intro s0 d0 s1 d1 h h1 h2 h3
    rw [session.chainOK] at h
    split_ifs at h with hc
    rw [List.cons_append, session.chainOK, if_pos hc]
    exact ih h h1 h2 h3

/-- `mapAux` stays above the destination floor. -/
theorem mapAux_lower {regs : List session.MappedRegion} :
    ∀ {s0 d0 s1 d1 dflt off : Nat}, session.chainOK s0 d0 regs = some (s1, d1) →
      d1 ≤ dflt → d0 ≤ session.mapAux off dflt regs := by
  induction regs with
  | nil =>
    intro s0 d0 s1 d1 dflt off h hd
    rw [session.chainOK] at h
    injection h with h; injection h with h1 h2
    rw [session.mapAux]
    omega
  | cons r rs ih =>
    intro s0 d0 s1 d1 dflt off h hd
    rw [session.chainOK] at h
    split_ifs at h with hc
    rw [session.mapAux]
    have hrec := @ih _ _ _ _ dflt off h hd
    split_ifs <;> omega

/-- `mapAux` never exceeds the default (the destination length). -/
theorem mapAux_upper {regs : List session.MappedRegion} :
    ∀ {s0 d0 s1 d1 dflt off : Nat}, session.chainOK s0 d0 regs = some (s1, d1) →
      d1 ≤ dflt → session.mapAux off dflt regs ≤ dflt := by
  induction regs with
  | nil => intro _ _ _ _ dflt off h hd; rw [session.mapAux]
  | cons r rs ih =>
    intro s0 d0 s1 d1 dflt off h hd
    rw [session.chainOK] at h
    split_ifs at h with hc
    rw [session.mapAux]
    have hge := chainOK_ge h
    have hrec := @ih _ _ _ _ dflt off h hd
    split_ifs <;> omega

/-- `mapAux` is monotone in the offset on a chained list. -/
theorem mapAux_mono {regs : List session.MappedRegion} :
    ∀ {s0 d0 s1 d1 dflt off1 off2 : Nat},
      session.chainOK s0 d0 regs = some (s1, d1) → d1 ≤ dflt →
      off1 ≤ off2 →
      session.mapAux off1 dflt regs ≤ session.mapAux off2 dflt regs := by
  induction regs with
  | nil => intro _ _ _ _ dflt off1 off2 h hd hoff; rw [session.mapAux]; exact le_refl _
  | cons r rs ih =>
    intro s0 d0 s1 d1 dflt off1 off2 h hd hoff
    rw [session.chainOK] at h
    split_ifs at h with hc
    rw [session.mapAux, session.mapAux]
    have hlow := @mapAux_lower _ _ _ _ _ dflt off2 h hd
    have hrec := @ih _ _ _ _ dflt off1 off2 h hd hoff
    split_ifs <;> omega

/-- `mapAux` is the exact affine translation inside a preserved region. -/
theorem mapAux_affine {regs : List session.MappedRegion} :
    ∀ {s0 d0 s1 d1 dflt off : Nat} {r : session.MappedRegion},
      session.chainOK s0 d0 regs = some (s1, d1) →
      r ∈ regs → r.srcStart ≤ off → off < r.srcEnd →
      session.mapAux off dflt regs = r.dstStart + (off - r.srcStart) := by
  induction regs with
  | nil => intro _ _ _ _ _ _ r h hr; exact absurd hr (List.not_mem_nil r)
  | cons q rs ih =>
    intro s0 d0 s1 d1 dflt off r h hr hlo hhi
    rw [session.chainOK] at h
    split_ifs at h with hc
    rw [session.mapAux]
    rcases List.mem_cons.mp hr with rfl | hr'
    · rw [if_neg (by omega), if_pos hhi]
    · have hq := chainOK_mem h r hr'
      rw [if_neg (by omega), if_neg (by omega)]
      exact ih h hr' hlo hhi

/-- Length of a Go slice with ordered, in-bounds indices. -/
theorem goSlice_length (l : Str) (a b : Nat) (hb : b ≤ l.length) :
    (goSlice l a b).length = b - a := by
  unfold goSlice
  rw [List.length_drop, List.length_take]
  omega

/-- `Map` never exceeds the destination length on a well-formed mapper. -/
theorem Map_le_dstLen (m : session.OffsetMapper) (h : session.MapperWF m) (off : Nat) :
    m.Map off ≤ m.dstLen := by
  obtain ⟨s1, d1, hchain, hd⟩ := h
  unfold session.OffsetMapper.Map
  split_ifs with hreg
  · exact Nat.zero_le _
  · exact mapAux_upper hchain hd

/-- `Map` is monotone on a well-formed mapper. -/
theorem Map_mono (m : session.OffsetMapper) (h : session.MapperWF m) {o1 o2 : Nat}
    (ho : o1 ≤ o2) : m.Map o1 ≤ m.Map o2 := by
  obtain ⟨s1, d1, hchain, hd⟩ := h
  unfold session.OffsetMapper.Map
  split_ifs with hreg
  · exact le_refl _
  · exact mapAux_mono hchain hd ho

/-- `Map` is the exact affine translation inside a preserved region of a
well-formed mapper. -/
theorem Map_affine (m : session.OffsetMapper) (h : session.MapperWF m)
    {r : session.MappedRegion} (hr : r ∈ m.regions) {off : Nat}
    (hlo : r.srcStart ≤ off) (hhi : off < r.srcEnd) :
    m.Map off = r.dstStart + (off - r.srcStart) := by
  obtain ⟨s1, d1, hchain, hd⟩ := h
  unfold session.OffsetMapper.Map
  rw [if_neg (by intro hcon; rw [hcon] at hr; exact List.not_mem_nil r hr)]
  exact mapAux_affine hchain hr hlo hhi

/-- The fold of `neutralizeClearWithOffsets` keeps the chain invariant. -/
theorem clearOff_fold_wf (content : Str) :
    ∀ (ms : List (Nat × Nat)) (res : Str) (regs : List session.MappedRegion)
      (lastEnd : Nat),
      session.MatchesOK lastEnd content.length ms →
      (∃ s1 d1, session.chainOK 0 0 regs = some (s1, d1) ∧ s1 ≤ lastEnd ∧
        d1 ≤ res.length) →
      lastEnd ≤ content.length →
      (∃ s1 d1,
        session.chainOK 0 0
          (ms.foldl (session.clearOffStep content) (res, regs, lastEnd)).2.1 =
            some (s1, d1) ∧
        s1 ≤ (ms.foldl (session.clearOffStep content) (res, regs, lastEnd)).2.2 ∧
        d1 ≤ (ms.foldl (session.clearOffStep content) (res, regs, lastEnd)).1.length) ∧
      (ms.foldl (session.clearOffStep content) (res, regs, lastEnd)).2.2 ≤
        content.length := by
  intro ms
  induction ms with
  | nil => intro res regs lastEnd _ hwf hle; exact ⟨hwf, hle⟩
  | cons me ms ih =>
    intro res regs lastEnd hms hwf hle
    obtain ⟨hlo, hse, hhi, hms'⟩ := hms
    obtain ⟨s1, d1, hchain, hs1, hd1⟩ := hwf
    rw [List.foldl_cons]
    simp only [session.clearOffStep]
    by_cases hnb : nonBlank (goSlice content lastEnd me.1)
    · rw [if_pos hnb]
      have hlenb : (goSlice content lastEnd me.1).length = me.1 - lastEnd :=
        goSlice_length content lastEnd me.1 (by omega)
      have hsnoc := chainOK_snoc regs ⟨lastEnd, me.1, res.length⟩ hchain hs1 hlo hd1
      apply ih
      · exact hms'
      · refine ⟨me.1, res.length + (me.1 - lastEnd), hsnoc, by omega, ?_⟩
        split_ifs <;> simp [hlenb]
      · omega
    · rw [if_neg hnb]
      apply ih
      · exact hms'
      · exact ⟨s1, d1, hchain, by omega, hd1⟩
      · omega

/-- The clear-neutralization pass builds a well-formed mapper. -/
theorem neutralizeClearWithOffsets_wf (content : Str) :
    session.MapperWF (session.neutralizeClearWithOffsets content).2 := by
  unfold session.neutralizeClearWithOffsets
  by_cases hms : session.findAll session.matchClearAt content = []
  · rw [if_pos hms]
    refine ⟨content.length, content.length, ?_, le_refl _⟩
    rw [session.identityMapper, session.chainOK,
      if_pos ⟨le_refl 0, Nat.zero_le _, le_refl 0⟩, session.chainOK]
    simp
  · rw [if_neg hms]
    have hms0 : session.MatchesOK 0 content.length
        (session.findAll session.matchClearAt content) := by
      have := findAllAux_matchesOK session.matchClearAt
        (fun l n h => matchClearAt_length h) content 0 0
      simpa [session.findAll] using this
    have hfold := clearOff_fold_wf content
      (session.findAll session.matchClearAt content) [] [] 0 hms0
      ⟨0, 0, by rw [session.chainOK], le_refl 0, Nat.zero_le _⟩ (Nat.zero_le _)
    obtain ⟨⟨s1, d1, hchain, hs1, hd1⟩, hle⟩ := hfold
    dsimp only
    by_cases hrem : nonBlank (content.drop
        ((session.findAll session.matchClearAt content).foldl
          (session.clearOffStep content) ([], [], 0)).2.2)
    · rw [if_pos hrem]
      set st := (session.findAll session.matchClearAt content).foldl
        (session.clearOffStep content) ([], [], 0) with hst
      have hsnoc := chainOK_snoc st.2.1
        ⟨st.2.2, st.2.2 + (content.drop st.2.2).length, st.1.length⟩ hchain hs1
        (by dsimp only; omega) hd1
      refine ⟨_, _, hsnoc, ?_⟩
      simp
    · rw [if_neg hrem]
      exact ⟨s1, d1, hchain, hd1⟩

/-- The fold of `neutralizeAltScreenWithOffsets` keeps the chain invariant. -/
theorem altOff_fold_wf (content : Str) (clearMs : List (Nat × Nat))
    (hclear : session.MatchesOK 0 content.length clearMs) :
    ∀ (ms : List (Nat × Nat)) (res : Str) (regs : List session.MappedRegion)
      (lastEnd : Nat) (inAlt : Bool),
      session.MatchesOK lastEnd content.length ms →
      (∃ s1 d1, session.chainOK 0 0 regs = some (s1, d1) ∧ s1 ≤ lastEnd ∧
        d1 ≤ res.length) →
      lastEnd ≤ content.length →
      (∃ s1 d1,
        session.chainOK 0 0
          (ms.foldl (session.altOffStep content clearMs) (res, regs, lastEnd, inAlt)).2.1 =
            some (s1, d1) ∧
        s1 ≤ (ms.foldl (session.altOffStep content clearMs) (res, regs, lastEnd, inAlt)).2.2.1 ∧
        d1 ≤ (ms.foldl (session.altOffStep content clearMs) (res, regs, lastEnd, inAlt)).1.length) ∧
      (ms.foldl (session.altOffStep content clearMs) (res, regs, lastEnd, inAlt)).2.2.1 ≤
        content.length := by
  intro ms
  induction ms with
  | nil => intro res regs lastEnd inAlt _ hwf hle; exact ⟨hwf, hle⟩
  | cons me ms ih =>
    intro res regs lastEnd inAlt hms hwf hle
    obtain ⟨hlo, hse, hhi, hms'⟩ := hms
    obtain ⟨s1, d1, hchain, hs1, hd1⟩ := hwf
    rw [List.foldl_cons]
    simp only [session.altOffStep]
    by_cases hE : charAt content (me.2 - 1) = 'h' ∧ ¬ inAlt
    · rw [if_pos hE]
      set stripFrom :=
        (match clearMs.find? (fun cm => lastEnd ≤ cm.1 ∧ cm.2 ≤ me.1) with
          | some cm => cm.1
          | none => me.1) with hsf
      have hsfb : lastEnd ≤ stripFrom ∧ stripFrom ≤ me.1 := by
        rw [hsf]
        cases hfind : clearMs.find? (fun cm => lastEnd ≤ cm.1 ∧ cm.2 ≤ me.1) with
        | none => exact ⟨hlo, le_refl _⟩
        | some cm =>
          have hp : lastEnd ≤ cm.1 ∧ cm.2 ≤ me.1 := by
            simpa using List.find?_some hfind
          have hmem := matchesOK_mem hclear cm (List.mem_of_find?_eq_some hfind)
          dsimp only
          exact ⟨hp.1, by omega⟩
      have hlenb : (goSlice content lastEnd stripFrom).length = stripFrom - lastEnd :=
        goSlice_length content lastEnd stripFrom (by omega)
      by_cases hpos : (goSlice content lastEnd stripFrom).length > 0
      · rw [if_pos hpos]
        have hsnoc := chainOK_snoc regs ⟨lastEnd, stripFrom, res.length⟩ hchain hs1
          (by dsimp only; omega) hd1
        apply ih
        · exact hms'
        · refine ⟨stripFrom, res.length + (stripFrom - lastEnd), hsnoc, by omega, ?_⟩
          simp [hlenb]
        · omega
      · rw [if_neg hpos]
        apply ih
        · exact hms'
        · refine ⟨s1, d1, hchain, by omega, ?_⟩
          rw [List.length_append]
          omega
        · omega
    · rw [if_neg hE]
      by_cases hL : ¬ charAt content (me.2 - 1) = 'h' ∧ inAlt
      · rw [if_pos hL]
        apply ih
        · exact hms'
        · refine ⟨s1, d1, hchain, by omega, ?_⟩
          split_ifs with hsep
          · rw [List.length_append]; omega
          · omega
        · omega
      · rw [if_neg hL]
        apply ih
        · exact hms'
        · exact ⟨s1, d1, hchain, by omega, hd1⟩
        · omega

/-- The alt-screen pass builds a well-formed mapper. -/
theorem neutralizeAltScreenWithOffsets_wf (content : Str) :
    session.MapperWF (session.neutralizeAltScreenWithOffsets content).2 := by
  unfold session.neutralizeAltScreenWithOffsets
  by_cases hms : session.findAll session.matchAltAt content = []
  · rw [if_pos hms]
    refine ⟨content.length, content.length, ?_, le_refl _⟩
    rw [session.identityMapper, session.chainOK,
      if_pos ⟨le_refl 0, Nat.zero_le _, le_refl 0⟩, session.chainOK]
    simp
  · rw [if_neg hms]
    have hclear : session.MatchesOK 0 content.length
        (session.findAll session.matchClearAt content) := by
      have := findAllAux_matchesOK session.matchClearAt
        (fun l n h => matchClearAt_length h) content 0 0
      simpa [session.findAll] using this
    have hms0 : session.MatchesOK 0 content.length
        (session.findAll session.matchAltAt content) := by
      have := findAllAux_matchesOK session.matchAltAt
        (fun l n h => matchAltAt_length h) content 0 0
      simpa [session.findAll] using this
    have hfold := altOff_fold_wf content (session.findAll session.matchClearAt content)
      hclear (session.findAll session.matchAltAt content) [] [] 0 false hms0
      ⟨0, 0, by rw [session.chainOK], le_refl 0, Nat.zero_le _⟩ (Nat.zero_le _)
    obtain ⟨⟨s1, d1, hchain, hs1, hd1⟩, hle⟩ := hfold
    dsimp only
    set st := (session.findAll session.matchAltAt content).foldl
      (session.altOffStep content (session.findAll session.matchClearAt content))
      ([], [], 0, false) with hst
    by_cases hAlt : ¬ st.2.2.2
    · rw [if_pos hAlt]
      by_cases hpos : (content.drop st.2.2.1).length > 0
      · rw [if_pos hpos]
        have hsnoc := chainOK_snoc st.2.1
          ⟨st.2.2.1, st.2.2.1 + (content.drop st.2.2.1).length, st.1.length⟩ hchain hs1
          (by dsimp only; omega) hd1
        refine ⟨_, _, hsnoc, ?_⟩
        simp
      · rw [if_neg hpos]
        refine ⟨s1, d1, hchain, ?_⟩
        simp only [List.length_append]
        omega
    · rw [if_neg hAlt]
      exact ⟨s1, d1, hchain, hd1⟩

/-- C2: for every mapper produced by a neutralization pass (the alt-screen
pass or the clear pass) and every source offset, `Map` stays within
`[0, dstLen]` (the lower bound holds by construction in ℕ), and on every
offset inside a preserved region `Map` is the exact affine translation
`dstStart + (offset - srcStart)`. -/
theorem c2_offset_mapper_bounds_and_affine (content : Str) :
    (∀ off : Nat,
      (session.neutralizeAltScreenWithOffsets content).2.Map off ≤
        (session.neutralizeAltScreenWithOffsets content).2.dstLen ∧
      (session.neutralizeClearWithOffsets content).2.Map off ≤
        (session.neutralizeClearWithOffsets content).2.dstLen) ∧
    (∀ r ∈ (session.neutralizeAltScreenWithOffsets content).2.regions,
      ∀ off : Nat, r.srcStart ≤ off → off < r.srcEnd →
        (session.neutralizeAltScreenWithOffsets content).2.Map off =
          r.dstStart + (off - r.srcStart)) ∧
    (∀ r ∈ (session.neutralizeClearWithOffsets content).2.regions,
      ∀ off : Nat, r.srcStart ≤ off → off < r.srcEnd →
        (session.neutralizeClearWithOffsets content).2.Map off =
          r.dstStart + (off - r.srcStart)) := by
  refine ⟨fun off => ⟨?_, ?_⟩, fun r hr off hlo hhi => ?_, fun r hr off hlo hhi => ?_⟩
  · exact Map_le_dstLen _ (neutralizeAltScreenWithOffsets_wf content) off
  · exact Map_le_dstLen _ (neutralizeClearWithOffsets_wf content) off
  · exact Map_affine _ (neutralizeAltScreenWithOffsets_wf content) hr hlo hhi
  · exact Map_affine _ (neutralizeClearWithOffsets_wf content) hr hlo hhi

/-- Witness for C2: evaluates bounds and the affine translation on the clear
mapper of a concrete input (region `{srcStart 5, srcEnd 6, dstStart 39}` of
`"a ESC[2J b"`). -/
theorem c2_offset_mapper_witness :
    (session.neutralizeClearWithOffsets "a\x1b[2Jb".data).2.Map 1000 ≤
      (session.neutralizeClearWithOffsets "a\x1b[2Jb".data).2.dstLen ∧
    (session.neutralizeClearWithOffsets "a\x1b[2Jb".data).2.Map 5 =
      (1 + session.ClearSeparator.length) + (5 - 5) :=
  ⟨((c2_offset_mapper_bounds_and_affine "a\x1b[2Jb".data).1 1000).2,
    (c2_offset_mapper_bounds_and_affine "a\x1b[2Jb".data).2.2
      ⟨5, 6, 1 + session.ClearSeparator.length⟩ (by decide) 5 (by decide) (by decide)⟩

/-- C9: for every input, the mapper of the alt-screen pass, the mapper of the
clear pass, and the composed mapping function of `NeutralizeAllWithOffsets`
are all monotone non-decreasing. -/
theorem c9_offset_map_monotone (content : Str) {s1 s2 : Nat} (h : s1 ≤ s2) :
    (session.neutralizeAltScreenWithOffsets content).2.Map s1 ≤
      (session.neutralizeAltScreenWithOffsets content).2.Map s2 ∧
    (session.neutralizeClearWithOffsets content).2.Map s1 ≤
      (session.neutralizeClearWithOffsets content).2.Map s2 ∧
    (session.NeutralizeAllWithOffsets content).2 s1 ≤
      (session.NeutralizeAllWithOffsets content).2 s2 := by
  refine ⟨Map_mono _ (neutralizeAltScreenWithOffsets_wf content) h,
    Map_mono _ (neutralizeClearWithOffsets_wf content) h, ?_⟩
  unfold session.NeutralizeAllWithOffsets
  dsimp only
  exact Map_mono _ (neutralizeClearWithOffsets_wf _)
    (Map_mono _ (neutralizeAltScreenWithOffsets_wf content) h)

/-- Witness for C9 at a concrete input and offsets. -/
theorem c9_offset_map_witness :
    (session.NeutralizeAllWithOffsets
      "before\x1b[2Jmid\x1b[?1049hX\x1b[?1049lafter".data).2 3 ≤
    (session.NeutralizeAllWithOffsets
      "before\x1b[2Jmid\x1b[?1049hX\x1b[?1049lafter".data).2 30 :=
  (c9_offset_map_monotone "before\x1b[2Jmid\x1b[?1049hX\x1b[?1049lafter".data
    (by decide)).2.2

/-- Splitting an `isPrefixOf` test across an append: a candidate no longer
than the first part is decided there; a longer one must extend it into the
second part. -/
theorem isPrefixOf_append_eval (c s r : Str) :
    c.isPrefixOf (s ++ r) =
      if c.length ≤ s.length then c.isPrefixOf s
      else s.isPrefixOf c && (c.drop s.length).isPrefixOf r := by
  induction s generalizing c with
  | nil =>
    cases c with
    | nil => simp [List.isPrefixOf]
    | cons b c' => simp [List.isPrefixOf]
  | cons a s' ih =>
    cases c with
    | nil => simp [List.isPrefixOf]
    | cons b c' =>
      rw [List.cons_append]
      show (b == a && c'.isPrefixOf (s' ++ r)) = _
      rw [ih c']
      by_cases hlen : c'.length ≤ s'.length
      · rw [if_pos hlen, if_pos (by simp; omega)]
        rfl
      · rw [if_neg hlen, if_neg (by simp; omega)]
        show (b == a && (s'.isPrefixOf c' && (c'.drop s'.length).isPrefixOf r)) =
          ((a == b && s'.isPrefixOf c') && (c'.drop s'.length).isPrefixOf r)
        have hcomm : (a == b) = (b == a) := by
          by_cases h : a = b
          · simp [h]
          · have h2 : ¬ b = a := fun hc => h hc.symm
            simp [h, h2]
        rw [hcomm, Bool.and_assoc]

/-- A candidate starting with the escape character is no prefix of a string
that does not. -/
theorem isPrefixOf_esc_head {c l : Str} (hc : c.head? = some esc)
    (hl : l.head? ≠ some esc) : c.isPrefixOf l = false := by
  cases c with
  | nil => simp at hc
  | cons a c' =>
    cases l with
    | nil => rfl
    | cons b l' =>
      simp only [List.head?_cons, Option.some.injEq] at hc
      show (a == b && _) = false
      have hab : ¬ a = b := by
        intro h
        exact hl (by simp [← h, hc])
      simp [hab]

/-- A string is a prefix of itself followed by anything. -/
theorem isPrefixOf_append_self (s r : Str) : s.isPrefixOf (s ++ r) = true :=
  List.isPrefixOf_iff_prefix.mpr (List.prefix_append s r)

/-- Rejection helper: candidate decided within the first part. -/
theorem not_prefixOf_append_short (c s : Str) (r : Str) (hlen : c.length ≤ s.length)
    (h : c.isPrefixOf s = false) : c.isPrefixOf (s ++ r) = false := by
  rw [isPrefixOf_append_eval, if_pos hlen, h]

/-- Rejection helper: longer candidate that does not extend the first part. -/
theorem not_prefixOf_append_long (c s : Str) (r : Str) (hlen : ¬ c.length ≤ s.length)
    (h : s.isPrefixOf c = false) : c.isPrefixOf (s ++ r) = false := by
  rw [isPrefixOf_append_eval, if_neg hlen, h, Bool.false_and]

/-- Rejection helper: longer candidate whose continuation starts with escape,
against a remainder that does not. -/
theorem not_prefixOf_append_cross (c s : Str) {r : Str} (hlen : ¬ c.length ≤ s.length)
    (hdrop : (c.drop s.length).head? = some esc) (hr : r.head? ≠ some esc) :
    c.isPrefixOf (s ++ r) = false := by
  rw [isPrefixOf_append_eval, if_neg hlen, isPrefixOf_esc_head hdrop hr, Bool.and_false]

/-- Every clear-pattern candidate starts with the escape character, so no
match starts elsewhere. -/
theorem matchClearAt_none_head {l : Str} (h : l.head? ≠ some esc) :
    session.matchClearAt l = none := by
  unfold session.matchClearAt
  rw [List.find?_eq_none.mpr]
  · rfl
  · intro c hc
    have hhead : c.head? = some esc := by
      fin_cases hc <;> rfl
    simp [isPrefixOf_esc_head hhead h]

/-- Same for the alternate-screen pattern. -/
theorem matchAltAt_none_head {l : Str} (h : l.head? ≠ some esc) :
    session.matchAltAt l = none := by
  unfold session.matchAltAt
  rw [List.find?_eq_none.mpr]
  · rfl
  · intro c hc
    have hhead : c.head? = some esc := by
      fin_cases hc <;> rfl
    simp [isPrefixOf_esc_head hhead h]

/-- The scanner makes no match inside an escape-free segment. -/
theorem findAllAux_escFree (m : Str → Option Nat)
    (hm : ∀ l : Str, l.head? ≠ some esc → m l = none) :
    ∀ (x y : Str), escFree x → ∀ pos : Nat,
      session.findAllAux m (x ++ y) pos 0 =
        session.findAllAux m y (pos + x.length) 0 := by
  intro x
  induction x with
  | nil => intro y _ pos; simp
  | cons c t ih =>
    intro y hx pos
    have hx' : (c ≠ esc) ∧ escFree t := by
      unfold escFree at hx ⊢
      simpa using hx
    rw [List.cons_append, session.findAllAux,
      hm (c :: (t ++ y)) (by simp [hx'.1]), ih y hx'.2 (pos + 1),
      show pos + 1 + t.length = pos + (c :: t).length from by simp; omega]

/-- The scanner consumes a skip run without testing positions inside it. -/
theorem findAllAux_skip (m : Str → Option Nat) :
    ∀ (w r : Str) (pos : Nat),
      session.findAllAux m (w ++ r) pos w.length =
        session.findAllAux m r (pos + w.length) 0 := by
  intro w
  induction w with
  | nil => intro r pos; simp
  | cons c t ih =>
    intro r pos
    rw [List.cons_append, List.length_cons, session.findAllAux, ih r (pos + 1),
      show pos + 1 + t.length = pos + (t.length + 1) from by omega]

/-- A match at the head of the scan is recorded and skipped over. -/
theorem findAllAux_match (m : Str → Option Nat) (s r : Str) (pos : Nat)
    (hs : s ≠ []) (hm : m (s ++ r) = some s.length) :
    session.findAllAux m (s ++ r) pos 0 =
      (pos, pos + s.length) :: session.findAllAux m r (pos + s.length) 0 := by
  cases s with
  | nil => contradiction
  | cons c t =>
    rw [List.cons_append, session.findAllAux]
    rw [List.cons_append] at hm
    rw [hm]
    dsimp only
    rw [show (c :: t).length - 1 = t.length from by simp,
      findAllAux_skip m t r (pos + 1),
      show pos + 1 + t.length = pos + (c :: t).length from by simp; omega]

/-- A sequence starting with escape is no list-prefix of a remainder that
does not. -/
theorem not_esc_prefix {r : Str} (hr : r.head? ≠ some esc) {z : Str}
    (hz : z.head? = some esc) : ¬ z <+: r := by
  intro hp
  obtain ⟨t, ht⟩ := hp
  cases z with
  | nil => simp at hz
  | cons a z' =>
    simp only [List.head?_cons, Option.some.injEq] at hz
    rw [← ht] at hr
    exact hr (by simp [hz])

/-- At the start of a recognized sequence followed by a non-escape remainder,
the matcher reports exactly that sequence. -/
theorem matchClearAt_seq {s : Str} (hs : s ∈ session.clearStrings) {r : Str}
    (hr : r.head? ≠ some esc) : session.matchClearAt (s ++ r) = some s.length := by
  fin_cases hs
  · unfold session.matchClearAt session.clearStrings
    rw [List.find?_cons_of_pos _ (by simp [isPrefixOf_append_self])]
    rfl
  · unfold session.matchClearAt session.clearStrings
    rw [List.find?_cons_of_neg _ (by simp [not_prefixOf_append_short "\x1b[H\x1b[J".data "\x1b[H\x1b[0J".data r (by decide) (by decide)]),
      List.find?_cons_of_pos _ (by simp [isPrefixOf_append_self])]
    rfl
  · unfold session.matchClearAt session.clearStrings
    rw [List.find?_cons_of_neg _ (by simp [not_prefixOf_append_short "\x1b[H\x1b[J".data "\x1b[H\x1b[2J".data r (by decide) (by decide)]),
      List.find?_cons_of_neg _ (by simp [not_prefixOf_append_short "\x1b[H\x1b[0J".data "\x1b[H\x1b[2J".data r (by decide) (by decide)]),
      List.find?_cons_of_pos _ (by simp [isPrefixOf_append_self])]
    rfl
  · unfold session.matchClearAt session.clearStrings
    rw [List.find?_cons_of_neg _ (by simp [not_prefixOf_append_short "\x1b[H\x1b[J".data "\x1b[H\x1b[3J".data r (by decide) (by decide)]),
      List.find?_cons_of_neg _ (by simp [not_prefixOf_append_short "\x1b[H\x1b[0J".data "\x1b[H\x1b[3J".data r (by decide) (by decide)]),
      List.find?_cons_of_neg _ (by simp [not_prefixOf_append_short "\x1b[H\x1b[2J".data "\x1b[H\x1b[3J".data r (by decide) (by decide)]),
      List.find?_cons_of_pos _ (by simp [isPrefixOf_append_self])]
    rfl
  · unfold session.matchClearAt session.clearStrings
    rw [List.find?_cons_of_neg _ (by simp [not_prefixOf_append_short "\x1b[H\x1b[J".data "\x1b[1;1H\x1b[J".data r (by decide) (by decide)]),
      List.find?_cons_of_neg _ (by simp [not_prefixOf_append_short "\x1b[H\x1b[0J".data "\x1b[1;1H\x1b[J".data r (by decide) (by decide)]),
      List.find?_cons_of_neg _ (by simp [not_prefixOf_append_short "\x1b[H\x1b[2J".data "\x1b[1;1H\x1b[J".data r (by decide) (by decide)]),
      List.find?_cons_of_neg _ (by simp [not_prefixOf_append_short "\x1b[H\x1b[3J".data "\x1b[1;1H\x1b[J".data r (by decide) (by decide)]),
      List.find?_cons_of_pos _ (by simp [isPrefixOf_append_self])]
    rfl
  · unfold session.matchClearAt session.clearStrings
    rw [List.find?_cons_of_neg _ (by simp [not_prefixOf_append_short "\x1b[H\x1b[J".data "\x1b[1;1H\x1b[0J".data r (by decide) (by decide)]),
      List.find?_cons_of_neg _ (by simp [not_prefixOf_append_short "\x1b[H\x1b[0J".data "\x1b[1;1H\x1b[0J".data r (by decide) (by decide)]),
      List.find?_cons_of_neg _ (by simp [not_prefixOf_append_short "\x1b[H\x1b[2J".data "\x1b[1;1H\x1b[0J".data r (by decide) (by decide)]),
      List.find?_cons_of_neg _ (by simp [not_prefixOf_append_short "\x1b[H\x1b[3J".data "\x1b[1;1H\x1b[0J".data r (by decide) (by decide)]),
      List.find?_cons_of_neg _ (by simp [not_prefixOf_append_short "\x1b[1;1H\x1b[J".data "\x1b[1;1H\x1b[0J".data r (by decide) (by decide)]),
      List.find?_cons_of_pos _ (by simp [isPrefixOf_append_self])]
    rfl
  · unfold session.matchClearAt session.clearStrings
    rw [List.find?_cons_of_neg _ (by simp [not_prefixOf_append_short "\x1b[H\x1b[J".data "\x1b[1;1H\x1b[2J".data r (by decide) (by decide)]),
      List.find?_cons_of_neg _ (by simp [not_prefixOf_append_short "\x1b[H\x1b[0J".data "\x1b[1;1H\x1b[2J".data r (by decide) (by decide)]),
      List.find?_cons_of_neg _ (by simp [not_prefixOf_append_short "\x1b[H\x1b[2J".data "\x1b[1;1H\x1b[2J".data r (by decide) (by decide)]),
      List.find?_cons_of_neg _ (by simp [not_prefixOf_append_short "\x1b[H\x1b[3J".data "\x1b[1;1H\x1b[2J".data r (by decide) (by decide)]),
      List.find?_cons_of_neg _ (by simp [not_prefixOf_append_short "\x1b[1;1H\x1b[J".data "\x1b[1;1H\x1b[2J".data r (by decide) (by decide)]),
      List.find?_cons_of_neg _ (by simp [not_prefixOf_append_short "\x1b[1;1H\x1b[0J".data "\x1b[1;1H\x1b[2J".data r (by decide) (by decide)]),
      List.find?_cons_of_pos _ (by simp [isPrefixOf_append_self])]
    rfl
  · unfold session.matchClearAt session.clearStrings
    rw [List.find?_cons_of_neg _ (by simp [not_prefixOf_append_short "\x1b[H\x1b[J".data "\x1b[1;1H\x1b[3J".data r (by decide) (by decide)]),
      List.find?_cons_of_neg _ (by simp [not_prefixOf_append_short "\x1b[H\x1b[0J".data "\x1b[1;1H\x1b[3J".data r (by decide) (by decide)]),
      List.find?_cons_of_neg _ (by simp [not_prefixOf_append_short "\x1b[H\x1b[2J".data "\x1b[1;1H\x1b[3J".data r (by decide) (by decide)]),
      List.find?_cons_of_neg _ (by simp [not_prefixOf_append_short "\x1b[H\x1b[3J".data "\x1b[1;1H\x1b[3J".data r (by decide) (by decide)]),
      List.find?_cons_of_neg _ (by simp [not_prefixOf_append_short "\x1b[1;1H\x1b[J".data "\x1b[1;1H\x1b[3J".data r (by decide) (by decide)]),
      List.find?_cons_of_neg _ (by simp [not_prefixOf_append_short "\x1b[1;1H\x1b[0J".data "\x1b[1;1H\x1b[3J".data r (by decide) (by decide)]),
      List.find?_cons_of_neg _ (by simp [not_prefixOf_append_short "\x1b[1;1H\x1b[2J".data "\x1b[1;1H\x1b[3J".data r (by decide) (by decide)]),
      List.find?_cons_of_pos _ (by simp [isPrefixOf_append_self])]
    rfl
  · unfold session.matchClearAt session.clearStrings
    rw [List.find?_cons_of_neg _ (by simp [not_prefixOf_append_short "\x1b[H\x1b[J".data "\x1b[2J\x1b[H".data r (by decide) (by decide)]),
      List.find?_cons_of_neg _ (by simp [not_prefixOf_append_short "\x1b[H\x1b[0J".data "\x1b[2J\x1b[H".data r (by decide) (by decide)]),
      List.find?_cons_of_neg _ (by simp [not_prefixOf_append_short "\x1b[H\x1b[2J".data "\x1b[2J\x1b[H".data r (by decide) (by decide)]),
      List.find?_cons_of_neg _ (by simp [not_prefixOf_append_short "\x1b[H\x1b[3J".data "\x1b[2J\x1b[H".data r (by decide) (by decide)]),
      List.find?_cons_of_neg _ (by simp [not_prefixOf_append_long "\x1b[1;1H\x1b[J".data "\x1b[2J\x1b[H".data r (by decide) (by decide)]),
      List.find?_cons_of_neg _ (by simp [not_prefixOf_append_long "\x1b[1;1H\x1b[0J".data "\x1b[2J\x1b[H".data r (by decide) (by decide)]),
      List.find?_cons_of_neg _ (by simp [not_prefixOf_append_long "\x1b[1;1H\x1b[2J".data "\x1b[2J\x1b[H".data r (by decide) (by decide)]),
      List.find?_cons_of_neg _ (by simp [not_prefixOf_append_long "\x1b[1;1H\x1b[3J".data "\x1b[2J\x1b[H".data r (by decide) (by decide)]),
      List.find?_cons_of_pos _ (by simp [isPrefixOf_append_self])]
    rfl
  · unfold session.matchClearAt session.clearStrings
    rw [List.find?_cons_of_neg _ (by simp [not_prefixOf_append_short "\x1b[H\x1b[J".data "\x1b[3J\x1b[H".data r (by decide) (by decide)]),
      List.find?_cons_of_neg _ (by simp [not_prefixOf_append_short "\x1b[H\x1b[0J".data "\x1b[3J\x1b[H".data r (by decide) (by decide)]),
      List.find?_cons_of_neg _ (by simp [not_prefixOf_append_short "\x1b[H\x1b[2J".data "\x1b[3J\x1b[H".data r (by decide) (by decide)]),
      List.find?_cons_of_neg _ (by simp [not_prefixOf_append_short "\x1b[H\x1b[3J".data "\x1b[3J\x1b[H".data r (by decide) (by decide)]),
      List.find?_cons_of_neg _ (by simp [not_prefixOf_append_long "\x1b[1;1H\x1b[J".data "\x1b[3J\x1b[H".data r (by decide) (by decide)]),
      List.find?_cons_of_neg _ (by simp [not_prefixOf_append_long "\x1b[1;1H\x1b[0J".data "\x1b[3J\x1b[H".data r (by decide) (by decide)]),
      List.find?_cons_of_neg _ (by simp [not_prefixOf_append_long "\x1b[1;1H\x1b[2J".data "\x1b[3J\x1b[H".data r (by decide) (by decide)]),
      List.find?_cons_of_neg _ (by simp [not_prefixOf_append_long "\x1b[1;1H\x1b[3J".data "\x1b[3J\x1b[H".data r (by decide) (by decide)]),
      List.find?_cons_of_neg _ (by simp [not_prefixOf_append_short "\x1b[2J\x1b[H".data "\x1b[3J\x1b[H".data r (by decide) (by decide)]),
      List.find?_cons_of_pos _ (by simp [isPrefixOf_append_self])]
    rfl
  · unfold session.matchClearAt session.clearStrings
    rw [List.find?_cons_of_neg _ (by simp [not_prefixOf_append_long "\x1b[H\x1b[J".data "\x1b[2J".data r (by decide) (by decide)]),
      List.find?_cons_of_neg _ (by simp [not_prefixOf_append_long "\x1b[H\x1b[0J".data "\x1b[2J".data r (by decide) (by decide)]),
      List.find?_cons_of_neg _ (by simp [not_prefixOf_append_long "\x1b[H\x1b[2J".data "\x1b[2J".data r (by decide) (by decide)]),
      List.find?_cons_of_neg _ (by simp [not_prefixOf_append_long "\x1b[H\x1b[3J".data "\x1b[2J".data r (by decide) (by decide)]),
      List.find?_cons_of_neg _ (by simp [not_prefixOf_append_long "\x1b[1;1H\x1b[J".data "\x1b[2J".data r (by decide) (by decide)]),
      List.find?_cons_of_neg _ (by simp [not_prefixOf_append_long "\x1b[1;1H\x1b[0J".data "\x1b[2J".data r (by decide) (by decide)]),
      List.find?_cons_of_neg _ (by simp [not_prefixOf_append_long "\x1b[1;1H\x1b[2J".data "\x1b[2J".data r (by decide) (by decide)]),
      List.find?_cons_of_neg _ (by simp [not_prefixOf_append_long "\x1b[1;1H\x1b[3J".data "\x1b[2J".data r (by decide) (by decide)]),
      List.find?_cons_of_neg _ (by simp; exact not_esc_prefix hr (by decide)),
      List.find?_cons_of_neg _ (by simp [not_prefixOf_append_long "\x1b[3J\x1b[H".data "\x1b[2J".data r (by decide) (by decide)]),
      List.find?_cons_of_pos _ (by simp [isPrefixOf_append_self])]
    rfl
  · unfold session.matchClearAt session.clearStrings
    rw [List.find?_cons_of_neg _ (by simp [not_prefixOf_append_long "\x1b[H\x1b[J".data "\x1b[3J".data r (by decide) (by decide)]),
      List.find?_cons_of_neg _ (by simp [not_prefixOf_append_long "\x1b[H\x1b[0J".data "\x1b[3J".data r (by decide) (by decide)]),
      List.find?_cons_of_neg _ (by simp [not_prefixOf_append_long "\x1b[H\x1b[2J".data "\x1b[3J".data r (by decide) (by decide)]),
      List.find?_cons_of_neg _ (by simp [not_prefixOf_append_long "\x1b[H\x1b[3J".data "\x1b[3J".data r (by decide) (by decide)]),
      List.find?_cons_of_neg _ (by simp [not_prefixOf_append_long "\x1b[1;1H\x1b[J".data "\x1b[3J".data r (by decide) (by decide)]),
      List.find?_cons_of_neg _ (by simp [not_prefixOf_append_long "\x1b[1;1H\x1b[0J".data "\x1b[3J".data r (by decide) (by decide)]),
      List.find?_cons_of_neg _ (by simp [not_prefixOf_append_long "\x1b[1;1H\x1b[2J".data "\x1b[3J".data r (by decide) (by decide)]),
      List.find?_cons_of_neg _ (by simp [not_prefixOf_append_long "\x1b[1;1H\x1b[3J".data "\x1b[3J".data r (by decide) (by decide)]),
      List.find?_cons_of_neg _ (by simp [not_prefixOf_append_long "\x1b[2J\x1b[H".data "\x1b[3J".data r (by decide) (by decide)]),
      List.find?_cons_of_neg _ (by simp; exact not_esc_prefix hr (by decide)),
      List.find?_cons_of_neg _ (by simp [not_prefixOf_append_short "\x1b[2J".data "\x1b[3J".data r (by decide) (by decide)]),
      List.find?_cons_of_pos _ (by simp [isPrefixOf_append_self])]
    rfl

/-- At the start of a recognized sequence followed by a non-escape remainder,
the matcher reports exactly that sequence. -/
theorem matchAltAt_seq {s : Str} (hs : s ∈ session.altStrings) {r : Str}
    (hr : r.head? ≠ some esc) : session.matchAltAt (s ++ r) = some s.length := by
  fin_cases hs
  · unfold session.matchAltAt session.altStrings
    rw [List.find?_cons_of_pos _ (by simp [isPrefixOf_append_self])]
    rfl
  · unfold session.matchAltAt session.altStrings
    rw [List.find?_cons_of_neg _ (by simp [not_prefixOf_append_short "\x1b[?1049h".data "\x1b[?1049l".data r (by decide) (by decide)]),
      List.find?_cons_of_pos _ (by simp [isPrefixOf_append_self])]
    rfl
  · unfold session.matchAltAt session.altStrings
    rw [List.find?_cons_of_neg _ (by simp [not_prefixOf_append_long "\x1b[?1049h".data "\x1b[?47h".data r (by decide) (by decide)]),
      List.find?_cons_of_neg _ (by simp [not_prefixOf_append_long "\x1b[?1049l".data "\x1b[?47h".data r (by decide) (by decide)]),
      List.find?_cons_of_pos _ (by simp [isPrefixOf_append_self])]
    rfl
  · unfold session.matchAltAt session.altStrings
    rw [List.find?_cons_of_neg _ (by simp [not_prefixOf_append_long "\x1b[?1049h".data "\x1b[?47l".data r (by decide) (by decide)]),
      List.find?_cons_of_neg _ (by simp [not_prefixOf_append_long "\x1b[?1049l".data "\x1b[?47l".data r (by decide) (by decide)]),
      List.find?_cons_of_neg _ (by simp [not_prefixOf_append_short "\x1b[?47h".data "\x1b[?47l".data r (by decide) (by decide)]),
      List.find?_cons_of_pos _ (by simp [isPrefixOf_append_self])]
    rfl
  · unfold session.matchAltAt session.altStrings
    rw [List.find?_cons_of_neg _ (by simp [not_prefixOf_append_short "\x1b[?1049h".data "\x1b[?1047h".data r (by decide) (by decide)]),
      List.find?_cons_of_neg _ (by simp [not_prefixOf_append_short "\x1b[?1049l".data "\x1b[?1047h".data r (by decide) (by decide)]),
      List.find?_cons_of_neg _ (by simp [not_prefixOf_append_short "\x1b[?47h".data "\x1b[?1047h".data r (by decide) (by decide)]),
      List.find?_cons_of_neg _ (by simp [not_prefixOf_append_short "\x1b[?47l".data "\x1b[?1047h".data r (by decide) (by decide)]),
      List.find?_cons_of_pos _ (by simp [isPrefixOf_append_self])]
    rfl
  · unfold session.matchAltAt session.altStrings
    rw [List.find?_cons_of_neg _ (by simp [not_prefixOf_append_short "\x1b[?1049h".data "\x1b[?1047l".data r (by decide) (by decide)]),
      List.find?_cons_of_neg _ (by simp [not_prefixOf_append_short "\x1b[?1049l".data "\x1b[?1047l".data r (by decide) (by decide)]),
      List.find?_cons_of_neg _ (by simp [not_prefixOf_append_short "\x1b[?47h".data "\x1b[?1047l".data r (by decide) (by decide)]),
      List.find?_cons_of_neg _ (by simp [not_prefixOf_append_short "\x1b[?47l".data "\x1b[?1047l".data r (by decide) (by decide)]),
      List.find?_cons_of_neg _ (by simp [not_prefixOf_append_short "\x1b[?1047h".data "\x1b[?1047l".data r (by decide) (by decide)]),
      List.find?_cons_of_pos _ (by simp [isPrefixOf_append_self])]
    rfl

/-- An escape-free string does not start with escape. -/
theorem escFree_head {B : Str} (hB : escFree B) : B.head? ≠ some esc := by
  cases B with
  | nil => simp
  | cons b B' =>
    unfold escFree at hB
    simp only [List.all_cons, Bool.and_eq_true, decide_eq_true_eq] at hB
    simp [hB.1]

/-- No matches at all inside an escape-free string. -/
theorem findAllAux_escFree_nil (m : Str → Option Nat)
    (hm : ∀ l : Str, l.head? ≠ some esc → m l = none)
    (B : Str) (hB : escFree B) (pos : Nat) : session.findAllAux m B pos 0 = [] := by
  have h := findAllAux_escFree m hm B [] hB pos
  rw [List.append_nil] at h
  rw [h, session.findAllAux]

/-- Clear-pattern sequences are nonempty. -/
theorem clearStrings_ne_nil {s : Str} (hs : s ∈ session.clearStrings) : s ≠ [] := by
  fin_cases hs <;> simp

/-- Clear-pattern sequences contain a non-whitespace character. -/
theorem clearStrings_nonBlank {s : Str} (hs : s ∈ session.clearStrings) :
    nonBlank s = true := by
  fin_cases hs <;> decide

/-- Whitespace-only strings are escape-free. -/
theorem allSpace_escFree {W : Str} (h : W.all goIsSpace) : escFree W := by
  unfold escFree
  rw [List.all_eq_true] at h ⊢
  intro c hc
  have := h c hc
  simp only [decide_eq_true_eq]
  intro hcon
  rw [hcon] at this
  exact absurd this (by decide)

/-- Whitespace-only strings are blank. -/
theorem allSpace_not_nonBlank {W : Str} (h : W.all goIsSpace) : nonBlank W = false := by
  unfold nonBlank
  rw [List.all_eq_true] at h
  rw [List.any_eq_false]
  intro c hc
  simp [h c hc]

/-- Taking an exact prefix through a Go slice. -/
theorem goSlice_prefix (x z : Str) : goSlice (x ++ z) 0 x.length = x := by
  unfold goSlice
  rw [List.drop_zero, List.take_left]

/-- Taking an exact middle segment through a Go slice. -/
theorem goSlice_middle (x y z : Str) :
    goSlice (x ++ y ++ z) x.length (x.length + y.length) = y := by
  unfold goSlice
  rw [show x.length + y.length = (x ++ y).length from (List.length_append x y).symm,
    List.take_left, List.drop_left]

/-- The clear matches in content made of plain text around one clear
sequence. -/
theorem findAll_clear_single (A s B : Str) (hA : escFree A)
    (hs : s ∈ session.clearStrings) (hB : escFree B) :
    session.findAll session.matchClearAt (A ++ s ++ B) =
      [(A.length, A.length + s.length)] := by
  unfold session.findAll
  rw [List.append_assoc,
    findAllAux_escFree _ (fun l h => matchClearAt_none_head h) A (s ++ B) hA 0,
    findAllAux_match _ s B (0 + A.length) (clearStrings_ne_nil hs)
      (matchClearAt_seq hs (escFree_head hB)),
    findAllAux_escFree_nil _ (fun l h => matchClearAt_none_head h) B hB _]
  simp

/-- The clear matches in content with two clear sequences separated by
whitespace. -/
theorem findAll_clear_double (A s W s2 B : Str) (hA : escFree A)
    (hs : s ∈ session.clearStrings) (hW : W.all goIsSpace) (hWne : W ≠ [])
    (hs2 : s2 ∈ session.clearStrings) (hB : escFree B) :
    session.findAll session.matchClearAt (A ++ s ++ W ++ s2 ++ B) =
      [(A.length, A.length + s.length),
        (A.length + s.length + W.length,
          A.length + s.length + W.length + s2.length)] := by
  have hWhead : (W ++ (s2 ++ B)).head? ≠ some esc := by
    cases W with
    | nil => exact absurd rfl hWne
    | cons w W' =>
      rw [List.all_cons, Bool.and_eq_true] at hW
      simp only [List.cons_append, List.head?_cons, Ne, Option.some.injEq]
      intro hcon
      rw [hcon] at hW
      exact absurd hW.1 (by decide)
  unfold session.findAll
  rw [show A ++ s ++ W ++ s2 ++ B = A ++ (s ++ (W ++ (s2 ++ B))) from by
      simp [List.append_assoc],
    findAllAux_escFree _ (fun l h => matchClearAt_none_head h) A _ hA 0,
    findAllAux_match _ s (W ++ (s2 ++ B)) (0 + A.length) (clearStrings_ne_nil hs)
      (matchClearAt_seq hs hWhead),
    findAllAux_escFree _ (fun l h => matchClearAt_none_head h) W (s2 ++ B)
      (allSpace_escFree hW) _,
    findAllAux_match _ s2 B _ (clearStrings_ne_nil hs2)
      (matchClearAt_seq hs2 (escFree_head hB)),
    findAllAux_escFree_nil _ (fun l h => matchClearAt_none_head h) B hB _]
  simp only [List.cons.injEq, Prod.mk.injEq]
  refine ⟨⟨by omega, by omega⟩, ⟨by omega, by omega⟩, trivial⟩

/-- C5: separator placement for clear-sequence neutralization, for plain
(escape-free) content around the clear sequences.  First part: around a
single clear, the output keeps a non-blank left side, inserts exactly one
separator only when both sides are non-blank, and keeps a non-blank right
side — so a blank side yields no separator.  Second part: two clears
separated only by (nonempty) whitespace collapse to a single separator
between the surrounding non-blank content. -/
theorem c5_clear_separator_placement (A s B : Str) (hs : s ∈ session.clearStrings)
    (hA : escFree A) (hB : escFree B) :
    (session.NeutralizeClearSequences (A ++ s ++ B) =
      (if nonBlank A then
        A ++ (if nonBlank B then session.ClearSeparator else []) else []) ++
      (if nonBlank B then B else [])) ∧
    (∀ W s2 : Str, s2 ∈ session.clearStrings → W ≠ [] → W.all goIsSpace →
      nonBlank A → nonBlank B →
      session.NeutralizeClearSequences (A ++ s ++ W ++ s2 ++ B) =
        A ++ session.ClearSeparator ++ B) := by
  constructor
  · have hms := findAll_clear_single A s B hA hs hB
    have hslice : goSlice (A ++ s ++ B) 0 A.length = A := by
      rw [List.append_assoc]
      exact goSlice_prefix A (s ++ B)
    have hdrop : (A ++ s ++ B).drop (A.length + s.length) = B := by
      rw [show A.length + s.length = (A ++ s).length from (List.length_append A s).symm,
        List.drop_left]
    unfold session.NeutralizeClearSequences
    rw [hms, if_neg (by simp)]
    simp only [List.foldl_cons, List.foldl_nil, session.ncsStep]
    rw [hslice]
    by_cases hnbA : nonBlank A
    · by_cases hnbB : nonBlank B
      · simp [hnbA, hnbB, hdrop]
      · simp [hnbA, hnbB, hdrop]
    · by_cases hnbB : nonBlank B
      · simp [hnbA, hnbB, hdrop]
      · simp [hnbA, hnbB, hdrop]
  · intro W s2 hs2 hWne hW hnbA hnbB
    have hms := findAll_clear_double A s W s2 B hA hs hW hWne hs2 hB
    have hslice1 : goSlice (A ++ s ++ W ++ s2 ++ B) 0 A.length = A := by
      rw [show A ++ s ++ W ++ s2 ++ B = A ++ (s ++ W ++ s2 ++ B) from by
        simp [List.append_assoc]]
      exact goSlice_prefix A _
    have hslice2 : goSlice (A ++ s ++ W ++ s2 ++ B) (A.length + s.length)
        (A.length + s.length + W.length) = W := by
      rw [show A ++ s ++ W ++ s2 ++ B = (A ++ s) ++ W ++ (s2 ++ B) from by
        simp [List.append_assoc],
        show A.length + s.length = (A ++ s).length from (List.length_append A s).symm]
      exact goSlice_middle (A ++ s) W (s2 ++ B)
    have hdrop1 : (A ++ s ++ W ++ s2 ++ B).drop (A.length + s.length) =
        W ++ s2 ++ B := by
      rw [show A ++ s ++ W ++ s2 ++ B = (A ++ s) ++ (W ++ s2 ++ B) from by
        simp [List.append_assoc],
        show A.length + s.length = (A ++ s).length from (List.length_append A s).symm,
        List.drop_left]
    have hdrop2 : (A ++ s ++ W ++ s2 ++ B).drop
        (A.length + s.length + W.length + s2.length) = B := by
      rw [show A ++ s ++ W ++ s2 ++ B = (A ++ s ++ W ++ s2) ++ B from by
        simp [List.append_assoc],
        show A.length + s.length + W.length + s2.length = (A ++ s ++ W ++ s2).length from by
          simp; omega,
        List.drop_left]
    have hmidnb : nonBlank (W ++ s2 ++ B) = true := by
      unfold nonBlank at *
      rw [List.any_eq_true]
      have := clearStrings_nonBlank hs2
      unfold nonBlank at this
      rw [List.any_eq_true] at this
      obtain ⟨c, hc, hcp⟩ := this
      exact ⟨c, by simp [hc], hcp⟩
    rw [show A ++ s ++ W ++ s2 ++ B = A ++ (s ++ (W ++ (s2 ++ B))) from by
      simp] at hslice2 hdrop1 hdrop2
    rw [show W ++ s2 ++ B = W ++ (s2 ++ B) from by simp] at hdrop1 hmidnb
    unfold session.NeutralizeClearSequences
    rw [hms, if_neg (by simp)]
    simp only [List.foldl_cons, List.foldl_nil, session.ncsStep]
    rw [hslice1]
    simp [hnbA, hnbB, hdrop1, hmidnb, hslice2, allSpace_not_nonBlank hW, hdrop2]

/-- Witness for C5: both parts applied at concrete content. -/
theorem c5_clear_separator_witness :
    session.NeutralizeClearSequences ("a".data ++ "\x1b[2J".data ++ "b".data) =
      (if nonBlank "a".data then
        "a".data ++ (if nonBlank "b".data then session.ClearSeparator else []) else []) ++
      (if nonBlank "b".data then "b".data else []) ∧
    session.NeutralizeClearSequences
        ("a".data ++ "\x1b[2J".data ++ " ".data ++ "\x1b[2J".data ++ "b".data) =
      "a".data ++ session.ClearSeparator ++ "b".data :=
  ⟨(c5_clear_separator_placement "a".data "\x1b[2J".data "b".data (by decide)
      (by decide) (by decide)).1,
    (c5_clear_separator_placement "a".data "\x1b[2J".data "b".data (by decide)
      (by decide) (by decide)).2 " ".data "\x1b[2J".data (by decide) (by decide)
      (by decide) (by decide) (by decide)⟩

/-- Alternate-screen sequences are nonempty. -/
theorem altStrings_ne_nil {e : Str} (he : e ∈ session.altStrings) : e ≠ [] := by
  fin_cases he <;> simp

/-- After its leading escape, an alternate-screen sequence is escape-free. -/
theorem altStrings_tail_escFree {e : Str} (he : e ∈ session.altStrings) :
    escFree (e.drop 1) := by
  fin_cases he <;> decide

/-- No clear-pattern candidate matches at the start of an alternate-screen
sequence (every candidate diverges from it within the sequence itself:
the third character of a candidate is never the `?` of the private-mode
prefix). -/
theorem matchClearAt_none_alt {e : Str} (he : e ∈ session.altStrings) (r : Str) :
    session.matchClearAt (e ++ r) = none := by
  unfold session.matchClearAt
  have hfind : session.clearStrings.find? (fun c => c.isPrefixOf (e ++ r)) = none := by
    rw [List.find?_eq_none]
    intro c hc
    fin_cases he <;> fin_cases hc <;>
      simp [isPrefixOf_append_eval, List.isPrefixOf]
  rw [hfind]
  rfl

/-- At the start of an alternate-screen sequence the matcher reports exactly
that sequence, whatever follows (the six candidates are mutually exclusive
as prefixes, so the decision never looks past the sequence). -/
theorem matchAltAt_seq_any {s : Str} (hs : s ∈ session.altStrings) (r : Str) :
    session.matchAltAt (s ++ r) = some s.length := by
  fin_cases hs
  · unfold session.matchAltAt session.altStrings
    rw [List.find?_cons_of_pos _ (by simp [isPrefixOf_append_self])]
    rfl
  · unfold session.matchAltAt session.altStrings
    rw [List.find?_cons_of_neg _ (by simp [not_prefixOf_append_short "\x1b[?1049h".data "\x1b[?1049l".data r (by decide) (by decide)]),
      List.find?_cons_of_pos _ (by simp [isPrefixOf_append_self])]
    rfl
  · unfold session.matchAltAt session.altStrings
    rw [List.find?_cons_of_neg _ (by simp [not_prefixOf_append_long "\x1b[?1049h".data "\x1b[?47h".data r (by decide) (by decide)]),
      List.find?_cons_of_neg _ (by simp [not_prefixOf_append_long "\x1b[?1049l".data "\x1b[?47h".data r (by decide) (by decide)]),
      List.find?_cons_of_pos _ (by simp [isPrefixOf_append_self])]
    rfl
  · unfold session.matchAltAt session.altStrings
    rw [List.find?_cons_of_neg _ (by simp [not_prefixOf_append_long "\x1b[?1049h".data "\x1b[?47l".data r (by decide) (by decide)]),
      List.find?_cons_of_neg _ (by simp [not_prefixOf_append_long "\x1b[?1049l".data "\x1b[?47l".data r (by decide) (by decide)]),
      List.find?_cons_of_neg _ (by simp [not_prefixOf_append_short "\x1b[?47h".data "\x1b[?47l".data r (by decide) (by decide)]),
      List.find?_cons_of_pos _ (by simp [isPrefixOf_append_self])]
    rfl
  · unfold session.matchAltAt session.altStrings
    rw [List.find?_cons_of_neg _ (by simp [not_prefixOf_append_short "\x1b[?1049h".data "\x1b[?1047h".data r (by decide) (by decide)]),
      List.find?_cons_of_neg _ (by simp [not_prefixOf_append_short "\x1b[?1049l".data "\x1b[?1047h".data r (by decide) (by decide)]),
      List.find?_cons_of_neg _ (by simp [not_prefixOf_append_short "\x1b[?47h".data "\x1b[?1047h".data r (by decide) (by decide)]),
      List.find?_cons_of_neg _ (by simp [not_prefixOf_append_short "\x1b[?47l".data "\x1b[?1047h".data r (by decide) (by decide)]),
      List.find?_cons_of_pos _ (by simp [isPrefixOf_append_self])]
    rfl
  · unfold session.matchAltAt session.altStrings
    rw [List.find?_cons_of_neg _ (by simp [not_prefixOf_append_short "\x1b[?1049h".data "\x1b[?1047l".data r (by decide) (by decide)]),
      List.find?_cons_of_neg _ (by simp [not_prefixOf_append_short "\x1b[?1049l".data "\x1b[?1047l".data r (by decide) (by decide)]),
      List.find?_cons_of_neg _ (by simp [not_prefixOf_append_short "\x1b[?47h".data "\x1b[?1047l".data r (by decide) (by decide)]),
      List.find?_cons_of_neg _ (by simp [not_prefixOf_append_short "\x1b[?47l".data "\x1b[?1047l".data r (by decide) (by decide)]),
      List.find?_cons_of_neg _ (by simp [not_prefixOf_append_short "\x1b[?1047h".data "\x1b[?1047l".data r (by decide) (by decide)]),
      List.find?_cons_of_pos _ (by simp [isPrefixOf_append_self])]
    rfl

/-- The clear scanner walks straight over an alternate-screen sequence:
no candidate matches at its escape, and its remaining characters are
escape-free. -/
theorem findAllAux_alt_clear {e : Str} (he : e ∈ session.altStrings) (r : Str)
    (pos : Nat) :
    session.findAllAux session.matchClearAt (e ++ r) pos 0 =
      session.findAllAux session.matchClearAt r (pos + e.length) 0 := by
  have hnone := matchClearAt_none_alt he r
  cases e with
  | nil => exact absurd he (by decide)
  | cons c t =>
    have htail : escFree t := altStrings_tail_escFree he
    rw [List.cons_append] at hnone
    rw [List.cons_append, session.findAllAux, hnone,
      findAllAux_escFree _ (fun l h => matchClearAt_none_head h) t r htail (pos + 1),
      show pos + 1 + t.length = pos + (c :: t).length from by simp; omega]

/-- The alternate-screen matches in content made of plain text around an
enter/leave pair. -/
theorem findAll_alt_pair (A en M lv B : Str) (hA : escFree A) (hM : escFree M)
    (hB : escFree B) (hen : en ∈ session.altStrings) (hlv : lv ∈ session.altStrings) :
    session.findAll session.matchAltAt (A ++ en ++ M ++ lv ++ B) =
      [(A.length, A.length + en.length),
        (A.length + en.length + M.length,
          A.length + en.length + M.length + lv.length)] := by
  unfold session.findAll
  rw [show A ++ en ++ M ++ lv ++ B = A ++ (en ++ (M ++ (lv ++ B))) from by simp,
    findAllAux_escFree _ (fun l h => matchAltAt_none_head h) A _ hA 0,
    findAllAux_match _ en (M ++ (lv ++ B)) (0 + A.length)
      (altStrings_ne_nil hen) (matchAltAt_seq_any hen _),
    findAllAux_escFree _ (fun l h => matchAltAt_none_head h) M (lv ++ B) hM _,
    findAllAux_match _ lv B _ (altStrings_ne_nil hlv) (matchAltAt_seq_any hlv _),
    findAllAux_escFree_nil _ (fun l h => matchAltAt_none_head h) B hB _]
  simp only [List.cons.injEq, Prod.mk.injEq]
  refine ⟨⟨by omega, by omega⟩, ⟨by omega, by omega⟩, trivial⟩

/-- The same content contains no clear-pattern match at all. -/
theorem findAll_clear_none_altpair (A en M lv B : Str) (hA : escFree A)
    (hM : escFree M) (hB : escFree B) (hen : en ∈ session.altStrings)
    (hlv : lv ∈ session.altStrings) :
    session.findAll session.matchClearAt (A ++ en ++ M ++ lv ++ B) = [] := by
  unfold session.findAll
  rw [show A ++ en ++ M ++ lv ++ B = A ++ (en ++ (M ++ (lv ++ B))) from by simp,
    findAllAux_escFree _ (fun l h => matchClearAt_none_head h) A _ hA 0,
    findAllAux_alt_clear hen _ _,
    findAllAux_escFree _ (fun l h => matchClearAt_none_head h) M (lv ++ B) hM _,
    findAllAux_alt_clear hlv _ _,
    findAllAux_escFree_nil _ (fun l h => matchClearAt_none_head h) B hB _]

/-- Indexing past a prefix lands in the suffix. -/
theorem charAt_append_add (x z : Str) (j : Nat) :
    charAt (x ++ z) (x.length + j) = charAt z j := by
  unfold charAt
  rw [List.getD_append_right]
  · simp
  · omega

/-- C4: batch alternate-screen neutralization on plain (escape-free) content
around a matching enter/leave pair keeps the content before the enter and the
content after the leave, discards every byte of the interior content (the
right-hand side does not depend on `M`), and inserts the alternate-screen
separator exactly when both surrounding sides are non-whitespace. -/
theorem c4_alt_screen_neutralization (A M B en lv : Str)
    (hpair : (en, lv) ∈
      [("\x1b[?1049h".data, "\x1b[?1049l".data),
        ("\x1b[?47h".data, "\x1b[?47l".data),
        ("\x1b[?1047h".data, "\x1b[?1047l".data)])
    (hA : escFree A) (hM : escFree M) (hB : escFree B) :
    session.NeutralizeAltScreenSequences (A ++ en ++ M ++ lv ++ B) =
      if nonBlank A ∧ nonBlank B then A ++ session.AltScreenSeparator ++ B
      else A ++ B := by
  have hen : en ∈ session.altStrings := by fin_cases hpair <;> decide
  have hlv : lv ∈ session.altStrings := by fin_cases hpair <;> decide
  have henne := altStrings_ne_nil hen
  have hlvne := altStrings_ne_nil hlv
  have henpos : 0 < en.length := List.length_pos.mpr henne
  have hlvpos : 0 < lv.length := List.length_pos.mpr hlvne
  have hlast_en : ∀ r : Str, charAt (en ++ r) (en.length - 1) = 'h' := by
    fin_cases hpair <;> intro r <;> rfl
  have hlast_lv : ∀ r : Str, charAt (lv ++ r) (lv.length - 1) = 'l' := by
    fin_cases hpair <;> intro r <;> rfl
  have hms := findAll_alt_pair A en M lv B hA hM hB hen hlv
  have hclear := findAll_clear_none_altpair A en M lv B hA hM hB hen hlv
  have hslice : goSlice (A ++ en ++ M ++ lv ++ B) 0 A.length = A := by
    rw [show A ++ en ++ M ++ lv ++ B = A ++ (en ++ M ++ lv ++ B) from by simp]
    exact goSlice_prefix A _
  have hdrop : (A ++ en ++ M ++ lv ++ B).drop
      (A.length + en.length + M.length + lv.length) = B := by
    rw [show A ++ en ++ M ++ lv ++ B = (A ++ en ++ M ++ lv) ++ B from by simp,
      show A.length + en.length + M.length + lv.length = (A ++ en ++ M ++ lv).length
        from by simp; omega,
      List.drop_left]
  have hch1 : charAt (A ++ en ++ M ++ lv ++ B) (A.length + en.length - 1) = 'h' := by
    rw [show A ++ en ++ M ++ lv ++ B = A ++ (en ++ (M ++ (lv ++ B))) from by simp,
      show A.length + en.length - 1 = A.length + (en.length - 1) from by omega,
      charAt_append_add]
    exact hlast_en _
  have hch2 : charAt (A ++ en ++ M ++ lv ++ B)
      (A.length + en.length + M.length + lv.length - 1) = 'l' := by
    rw [show A ++ en ++ M ++ lv ++ B = (A ++ en ++ M) ++ (lv ++ B) from by simp,
      show A.length + en.length + M.length + lv.length - 1 =
        (A ++ en ++ M).length + (lv.length - 1) from by simp; omega,
      charAt_append_add]
    exact hlast_lv _
  have hstep1 : session.altStep (A ++ en ++ M ++ lv ++ B) [] ([], 0, false)
      (A.length, A.length + en.length) = (A, A.length + en.length, true) := by
    unfold session.altStep
    dsimp only
    rw [hch1]
    simp
    exact goSlice_prefix A _
  have hstep2 : session.altStep (A ++ en ++ M ++ lv ++ B) []
      (A, A.length + en.length, true)
      (A.length + en.length + M.length,
        A.length + en.length + M.length + lv.length) =
      ((if nonBlank A ∧ nonBlank B then A ++ session.AltScreenSeparator else A),
        A.length + en.length + M.length + lv.length, false) := by
    unfold session.altStep
    dsimp only
    rw [hch2, hdrop]
    simp
  unfold session.NeutralizeAltScreenSequences
  rw [hms, if_neg (by simp), hclear]
  simp only [List.foldl_cons, List.foldl_nil]
  rw [hstep1, hstep2]
  dsimp only
  rw [hdrop]
  by_cases h : nonBlank A ∧ nonBlank B
  · simp [h]
  · simp [h]

/-- Witness for C4 at the spec's own example content. -/
theorem c4_alt_screen_witness :
    session.NeutralizeAltScreenSequences
        ("before".data ++ "\x1b[?1049h".data ++ "TUI".data ++
          "\x1b[?1049l".data ++ "after".data) =
      if nonBlank "before".data ∧ nonBlank "after".data then
        "before".data ++ session.AltScreenSeparator ++ "after".data
      else "before".data ++ "after".data :=
  c4_alt_screen_neutralization "before".data "TUI".data "after".data
    "\x1b[?1049h".data "\x1b[?1049l".data (by decide) (by decide) (by decide)
    (by decide)

/-- The clear matcher reports nothing on empty input. -/
theorem matchClearAt_nil : session.matchClearAt [] = none := by decide

/-- The clear matcher fails exactly when no candidate is a prefix. -/
theorem matchClearAt_eq_none_iff (l : Str) :
    session.matchClearAt l = none ↔ ∀ c ∈ session.clearStrings, ¬ c <+: l := by
  unfold session.matchClearAt
  rw [Option.map_eq_none', List.find?_eq_none]
  constructor
  · intro h c hc hpre
    exact h c hc (List.isPrefixOf_iff_prefix.mpr hpre)
  · intro h c hc hpre
    exact h c hc (List.isPrefixOf_iff_prefix.mp hpre)

/-- Clear matches are nonempty. -/
theorem matchClearAt_pos {l : Str} {n : Nat} (h : session.matchClearAt l = some n) :
    1 ≤ n := by
  unfold session.matchClearAt at h
  cases hf : session.clearStrings.find? (fun c => c.isPrefixOf l) with
  | none => rw [hf] at h; simp at h
  | some c =>
    rw [hf] at h
    have hlen : c.length = n := by simpa using h
    have hmem : c ∈ session.clearStrings := List.mem_of_find?_eq_some hf
    have := clearStrings_ne_nil hmem
    have := List.length_pos.mpr this
    omega

/-- No clear candidate contains a line break. -/
theorem clearStrings_no_newline : ∀ c ∈ session.clearStrings, '\n' ∉ c := by decide

/-- Failure of the matcher transfers down prefixes. -/
theorem matchClearAt_none_of_prefix {u v : Str} (huv : u <+: v)
    (hv : session.matchClearAt v = none) : session.matchClearAt u = none := by
  rw [matchClearAt_eq_none_iff] at hv ⊢
  intro c hc hpre
  exact hv c hc (hpre.trans huv)

/-- Suffixes of escape-free strings are escape-free. -/
theorem escFree_drop {x : Str} (hx : escFree x) (p : Nat) : escFree (x.drop p) := by
  unfold escFree at hx ⊢
  rw [List.all_eq_true] at hx ⊢
  exact fun c hc => hx c (List.drop_subset p x hc)

/-- An escape-free string has no clear match at any position. -/
theorem noStart_escFree {x : Str} (hx : escFree x) (p : Nat) :
    session.matchClearAt (x.drop p) = none :=
  matchClearAt_none_head (escFree_head (escFree_drop hx p))

/-- `nonBlank` is monotone along list inclusion. -/
theorem nonBlank_mono {u v : Str} (h : u ⊆ v) (hu : nonBlank u = true) :
    nonBlank v = true := by
  unfold nonBlank at hu ⊢
  rw [List.any_eq_true] at hu ⊢
  obtain ⟨c, hc, hcp⟩ := hu
  exact ⟨c, h hc, hcp⟩

/-- A prefix of an append that fits in the left part is a prefix of it. -/
theorem prefix_of_append_of_le {c x y : Str} (h : c <+: x ++ y)
    (hl : c.length ≤ x.length) : c <+: x := by
  have hc : c = (x ++ y).take c.length := by
    obtain ⟨t, ht⟩ := h
    rw [← ht, List.take_left]
  rw [hc, List.take_append_eq_append_take,
    show c.length - x.length = 0 from by omega, List.take_zero, List.append_nil]
  exact List.take_prefix _ _

/-- A truncation of the reference string is a prefix of anything it
prefixes. -/
theorem take_prefix_of_prefix {z c : Str} (h : c <+: z) (k : Nat)
    (hk : k ≤ c.length) : z.take k <+: c := by
  obtain ⟨t, ht⟩ := h
  rw [← ht, List.take_append_eq_append_take,
    show k - c.length = 0 from by omega, List.take_zero, List.append_nil]
  exact List.take_prefix _ _

/-- Gap property of the scanner: at any position at or past the scan point
that no reported match covers, the matcher fails. -/
theorem findAllAux_uncovered (m : Str → Option Nat) (hm0 : m [] = none)
    (hm1 : ∀ l n, m l = some n → 1 ≤ n) :
    ∀ (l : Str) (pos k p : Nat), pos + k ≤ p →
      (∀ me ∈ session.findAllAux m l pos k, p < me.1 ∨ me.2 ≤ p) →
      m (l.drop (p - pos)) = none := by
  intro l
  induction l with
  | nil => intro pos k p _ _; rw [List.drop_nil]; exact hm0
  | cons c t ih =>
    intro pos k p hpk hout
    cases k with
    | succ k' =>
      rw [session.findAllAux] at hout
      have h := ih (pos + 1) k' p (by omega) hout
      rw [show p - pos = (p - (pos + 1)) + 1 from by omega, List.drop_succ_cons]
      exact h
    | zero =>
      rw [session.findAllAux] at hout
      cases hmc : m (c :: t) with
      | some n =>
        rw [hmc] at hout
        have hhead := hout (pos, pos + n) (List.mem_cons_self _ _)
        have hn := hm1 _ _ hmc
        have hp2 : pos + n ≤ p := by
          rcases hhead with h | h
          · omega
          · exact h
        have h := ih (pos + 1) (n - 1) p (by omega)
          (fun me hme => hout me (List.mem_cons_of_mem _ hme))
        rw [show p - pos = (p - (pos + 1)) + 1 from by omega, List.drop_succ_cons]
        exact h
      | none =>
        rw [hmc] at hout
        by_cases hp : p = pos
        · subst hp
          rw [Nat.sub_self, List.drop_zero]
          exact hmc
        · have h := ih (pos + 1) 0 p (by omega) hout
          rw [show p - pos = (p - (pos + 1)) + 1 from by omega, List.drop_succ_cons]
          exact h

/-- If the matcher fails on every suffix, the scanner reports nothing. -/
theorem findAllAux_nil_of_none (m : Str → Option Nat) :
    ∀ (l : Str) (pos : Nat), (∀ p, m (l.drop p) = none) →
      session.findAllAux m l pos 0 = [] := by
  intro l
  induction l with
  | nil => intro pos _; rw [session.findAllAux]
  | cons c t ih =>
    intro pos h
    have h0 := h 0
    rw [List.drop_zero] at h0
    rw [session.findAllAux, h0]
    exact ih (pos + 1) (fun p => by
      have := h (p + 1)
      rwa [List.drop_succ_cons] at this)

/-- Without matches, clear neutralization is the identity. -/
theorem NeutralizeClearSequences_eq_self {l : Str}
    (h : session.findAll session.matchClearAt l = []) :
    session.NeutralizeClearSequences l = l := by
  unfold session.NeutralizeClearSequences
  rw [h]
  simp

/-- Joining match-free strings across a left side ending in a line break
stays match-free: a candidate crossing the boundary would have to contain
the break. -/
theorem noStart_append_nl_end (x y : Str)
    (hx : ∀ p, session.matchClearAt (x.drop p) = none)
    (hy : ∀ p, session.matchClearAt (y.drop p) = none)
    (hend : x = [] ∨ x.getLast? = some '\n') :
    ∀ p, session.matchClearAt ((x ++ y).drop p) = none := by
  intro p
  by_cases hp : x.length ≤ p
  · rw [List.drop_append_eq_append_drop, List.drop_eq_nil_of_le hp, List.nil_append]
    exact hy _
  · push_neg at hp
    rw [List.drop_append_eq_append_drop, show p - x.length = 0 from by omega,
      List.drop_zero, matchClearAt_eq_none_iff]
    intro c hc hpre
    by_cases hcl : c.length ≤ (x.drop p).length
    · exact (matchClearAt_eq_none_iff _).mp (hx p) c hc
        (prefix_of_append_of_le hpre hcl)
    · have hxne : x ≠ [] := by
        intro h
        rw [h] at hp
        simp at hp
      have hlast : x.getLast? = some '\n' := by
        rcases hend with h | h
        · exact absurd h hxne
        · exact h
      obtain ⟨w, rfl⟩ := List.getLast?_eq_some_iff.mp hlast
      have hplen : p ≤ w.length := by
        rw [List.length_append] at hp
        simp at hp
        omega
      have hdropx : (w ++ ['\n']).drop p = w.drop p ++ ['\n'] := by
        rw [List.drop_append_eq_append_drop, show p - w.length = 0 from by omega,
          List.drop_zero]
      have hxc : (w ++ ['\n']).drop p <+: c := by
        have := take_prefix_of_prefix hpre
          (((w ++ ['\n']).drop p).length) (by omega)
        rwa [List.take_left] at this
      refine clearStrings_no_newline c hc (hxc.subset ?_)
      rw [hdropx]
      simp

/-- Joining match-free strings across a right side starting with a line
break stays match-free. -/
theorem noStart_append_nl_head (x y : Str)
    (hx : ∀ p, session.matchClearAt (x.drop p) = none)
    (hy : ∀ p, session.matchClearAt (y.drop p) = none)
    (hhead : y.head? = some '\n') :
    ∀ p, session.matchClearAt ((x ++ y).drop p) = none := by
  obtain ⟨ytail, rfl⟩ : ∃ t, y = '\n' :: t := by
    cases y with
    | nil => simp at hhead
    | cons a t =>
      simp at hhead
      exact ⟨t, by rw [hhead]⟩
  intro p
  by_cases hp : x.length ≤ p
  · rw [List.drop_append_eq_append_drop, List.drop_eq_nil_of_le hp, List.nil_append]
    exact hy _
  · push_neg at hp
    rw [List.drop_append_eq_append_drop, show p - x.length = 0 from by omega,
      List.drop_zero, matchClearAt_eq_none_iff]
    intro c hc hpre
    by_cases hcl : c.length ≤ (x.drop p).length
    · exact (matchClearAt_eq_none_iff _).mp (hx p) c hc
        (prefix_of_append_of_le hpre hcl)
    · have hk : (x.drop p).length + 1 ≤ c.length := by omega
      have htake : (x.drop p ++ '\n' :: ytail).take ((x.drop p).length + 1) =
          x.drop p ++ ['\n'] := by
        rw [List.take_append_eq_append_take, List.take_of_length_le (by omega),
          show (x.drop p).length + 1 - (x.drop p).length = 1 from by omega]
        rfl
      have hxc : x.drop p ++ ['\n'] <+: c := by
        have := take_prefix_of_prefix hpre ((x.drop p).length + 1) hk
        rwa [htake] at this
      exact clearStrings_no_newline c hc (hxc.subset (by simp))

/-- Blankness of the tail is preserved as the cut point moves right. -/
theorem blank_drop_mono {content : Str} {le e : Nat} (hle : le ≤ e)
    (h : nonBlank (content.drop le) = false) :
    nonBlank (content.drop e) = false := by
  cases hnb : nonBlank (content.drop e)
  · rfl
  · have hsub : content.drop e ⊆ content.drop le := by
      rw [show e = le + (e - le) from by omega, ← List.drop_drop]
      exact List.drop_subset _ _
    exact absurd (nonBlank_mono hsub hnb) (by simp [h])

/-- A gap slice of the content inherits matcher failure from the content. -/
theorem noStart_gap (content : Str) (le s : Nat)
    (hnone : ∀ q, le ≤ q → q < s → session.matchClearAt (content.drop q) = none) :
    ∀ k, session.matchClearAt ((goSlice content le s).drop k) = none := by
  intro k
  by_cases hk : le + k < s
  · have hpre : (goSlice content le s).drop k <+: content.drop (le + k) := by
      unfold goSlice
      rw [List.drop_drop, List.drop_take]
      exact List.take_prefix _ _
    exact matchClearAt_none_of_prefix hpre (hnone (le + k) (by omega) hk)
  · have hnil : (goSlice content le s).drop k = [] := by
      apply List.drop_eq_nil_of_le
      unfold goSlice
      have h1 : ((content.take s).drop le).length ≤ s - le := by
        rw [List.length_drop]
        have := List.length_take_le s content
        omega
      omega
    rw [hnil]
    exact matchClearAt_nil

/-- Invariant of the clear-neutralization fold: if the builder is match-free
and ends at a line break (or everything still ahead is blank), it stays so,
and afterwards the matcher fails everywhere at or past the final cut. -/
theorem ncs_fold_noStart (content : Str) :
    ∀ (ms : List (Nat × Nat)) (res : Str) (le : Nat),
      session.MatchesOK le content.length ms →
      (∀ p, le ≤ p → (∀ me ∈ ms, p < me.1 ∨ me.2 ≤ p) →
        session.matchClearAt (content.drop p) = none) →
      (∀ p, session.matchClearAt (res.drop p) = none) →
      (res = [] ∨ res.getLast? = some '\n' ∨ nonBlank (content.drop le) = false) →
      (∀ p, session.matchClearAt
          ((ms.foldl (session.ncsStep content) (res, le)).1.drop p) = none) ∧
      ((ms.foldl (session.ncsStep content) (res, le)).1 = [] ∨
        (ms.foldl (session.ncsStep content) (res, le)).1.getLast? = some '\n' ∨
        nonBlank (content.drop
          (ms.foldl (session.ncsStep content) (res, le)).2) = false) ∧
      (∀ p, (ms.foldl (session.ncsStep content) (res, le)).2 ≤ p →
        session.matchClearAt (content.drop p) = none) := by
  intro ms
  induction ms with
  | nil =>
    intro res le hchain hun hres hdisc
    simp only [List.foldl_nil]
    exact ⟨hres, hdisc,
      fun p hp => hun p hp (fun me hme => absurd hme (List.not_mem_nil me))⟩
  | cons me rest ih =>
    intro res le hchain hun hres hdisc
    obtain ⟨s, e⟩ := me
    have hles : le ≤ s := hchain.1
    have hse : s ≤ e := hchain.2.1
    have hchain' : session.MatchesOK e content.length rest := hchain.2.2.2
    have hrest_lo := matchesOK_mem hchain'
    have hun' : ∀ p, e ≤ p → (∀ me' ∈ rest, p < me'.1 ∨ me'.2 ≤ p) →
        session.matchClearAt (content.drop p) = none := by
      intro p hp hout
      refine hun p (by omega) ?_
      intro me' hme'
      rcases List.mem_cons.mp hme' with rfl | h'
      · exact Or.inr hp
      · exact hout me' h'
    have hnone : ∀ q, le ≤ q → q < s →
        session.matchClearAt (content.drop q) = none := by
      intro q hq1 hq2
      refine hun q hq1 ?_
      intro me' hme'
      rcases List.mem_cons.mp hme' with rfl | h'
      · exact Or.inl hq2
      · refine Or.inl ?_
        have := (hrest_lo me' h').1
        omega
    rw [List.foldl_cons]
    by_cases hb : nonBlank (goSlice content le s)
    · have hgap_nb : nonBlank (content.drop le) = true := by
        refine nonBlank_mono ?_ hb
        unfold goSlice
        rw [List.drop_take]
        exact List.take_subset _ _
      have hresdisc : res = [] ∨ res.getLast? = some '\n' := by
        rcases hdisc with h | h | h
        · exact Or.inl h
        · exact Or.inr h
        · rw [hgap_nb] at h
          exact absurd h (by simp)
      have hbefore := noStart_gap content le s hnone
      have hnores : ∀ p,
          session.matchClearAt ((res ++ goSlice content le s).drop p) = none :=
        noStart_append_nl_end res _ hres hbefore hresdisc
      by_cases ha : nonBlank (content.drop e)
      · have hstep : session.ncsStep content (res, le) (s, e) =
            (res ++ goSlice content le s ++ session.ClearSeparator, e) := by
          unfold session.ncsStep
          simp [hb, ha]
        rw [hstep]
        refine ih _ e hchain' hun' ?_ ?_
        · exact noStart_append_nl_head _ _ hnores
            (noStart_escFree (by decide)) (by decide)
        · refine Or.inr (Or.inl ?_)
          rw [List.getLast?_append,
            show session.ClearSeparator.getLast? = some '\n' from by decide]
          rfl
      · have hstep : session.ncsStep content (res, le) (s, e) =
            (res ++ goSlice content le s, e) := by
          unfold session.ncsStep
          simp [hb, ha]
        rw [hstep]
        refine ih _ e hchain' hun' hnores ?_
        simp only [Bool.not_eq_true] at ha
        exact Or.inr (Or.inr ha)
    · have hstep : session.ncsStep content (res, le) (s, e) = (res, e) := by
        unfold session.ncsStep
        simp [hb]
      rw [hstep]
      refine ih res e hchain' hun' hres ?_
      rcases hdisc with h | h | h
      · exact Or.inl h
      · exact Or.inr (Or.inl h)
      · exact Or.inr (Or.inr (blank_drop_mono (by omega) h))

/-- The output of clear neutralization has no clear match at any position. -/
theorem ncs_noStart (content : Str) (p : Nat) :
    session.matchClearAt
      ((session.NeutralizeClearSequences content).drop p) = none := by
  have hun0 : ∀ q, (∀ me ∈ session.findAll session.matchClearAt content,
      q < me.1 ∨ me.2 ≤ q) → session.matchClearAt (content.drop q) = none := by
    intro q hout
    have := findAllAux_uncovered session.matchClearAt matchClearAt_nil
      (fun l n h => matchClearAt_pos h) content 0 0 q (by omega) hout
    simpa using this
  by_cases hms : session.findAll session.matchClearAt content = []
  · rw [NeutralizeClearSequences_eq_self hms]
    refine hun0 p ?_
    rw [hms]
    intro me hme
    exact absurd hme (List.not_mem_nil me)
  · have hchain := findAllAux_matchesOK session.matchClearAt
      (fun l n h => matchClearAt_length h) content 0 0
    have hinv := ncs_fold_noStart content
      (session.findAll session.matchClearAt content) [] 0
      (by simpa [session.findAll] using hchain)
      (fun q hq hout => hun0 q hout)
      (fun q => by rw [List.drop_nil]; exact matchClearAt_nil)
      (Or.inl rfl)
    obtain ⟨hst1, hst2, hst3⟩ := hinv
    unfold session.NeutralizeClearSequences
    rw [if_neg hms]
    by_cases hrem : nonBlank (content.drop
        ((session.findAll session.matchClearAt content).foldl
          (session.ncsStep content) ([], 0)).2)
    · rw [if_pos hrem]
      have hdisc : ((session.findAll session.matchClearAt content).foldl
          (session.ncsStep content) ([], 0)).1 = [] ∨
          ((session.findAll session.matchClearAt content).foldl
            (session.ncsStep content) ([], 0)).1.getLast? = some '\n' := by
        rcases hst2 with h | h | h
        · exact Or.inl h
        · exact Or.inr h
        · simp [h] at hrem
      refine noStart_append_nl_end _ _ hst1 ?_ hdisc p
      intro k
      rw [List.drop_drop]
      exact hst3 _ (by omega)
    · rw [if_neg hrem]
      exact hst1 p

/-- C10: the output of clear-sequence neutralization contains no substring
matching any recognized clear sequence (no candidate of `clearPattern` is an
infix of the output), so a second application of `NeutralizeClearSequences`
finds no matches and returns its input unchanged: the pass is idempotent. -/
theorem c10_clear_neutralization_idempotent (content : Str) :
    (∀ c ∈ session.clearStrings,
      ¬ c <:+: session.NeutralizeClearSequences content) ∧
    session.NeutralizeClearSequences (session.NeutralizeClearSequences content) =
      session.NeutralizeClearSequences content := by
  constructor
  · intro c hc hinf
    obtain ⟨t, hpt, hts⟩ := List.infix_iff_prefix_suffix.mp hinf
    obtain ⟨u, hu⟩ := hts
    have hdrop : (session.NeutralizeClearSequences content).drop u.length = t := by
      rw [← hu, List.drop_left]
    have hnone := ncs_noStart content u.length
    rw [hdrop] at hnone
    exact (matchClearAt_eq_none_iff t).mp hnone c hc hpt
  · apply NeutralizeClearSequences_eq_self
    unfold session.findAll
    exact findAllAux_nil_of_none _ _ 0 (ncs_noStart content)

/-- Witness for C10 at concrete content containing one clear sequence. -/
theorem c10_idempotent_witness :
    session.NeutralizeClearSequences
        (session.NeutralizeClearSequences "a\x1b[2Jb".data) =
      session.NeutralizeClearSequences "a\x1b[2Jb".data :=
  (c10_clear_neutralization_idempotent "a\x1b[2Jb".data).2

/-- Each piece produced by `splitOnP` contains no character satisfying the
splitting predicate. -/
theorem splitOnP_pieces (p : Char → Bool) :
    ∀ (l : Str) (piece : Str), piece ∈ l.splitOnP p → ∀ x ∈ piece, p x = false := by
  intro l
  induction l with
  | nil =>
    intro piece hp x hx
    rw [List.splitOnP_nil] at hp
    simp at hp
    subst hp
    exact absurd hx (List.not_mem_nil x)
  | cons a as ih =>
    intro piece hp x hx
    rw [List.splitOnP_cons] at hp
    by_cases ha : p a
    · rw [if_pos ha] at hp
      rcases List.mem_cons.mp hp with rfl | h'
      · exact absurd hx (List.not_mem_nil x)
      · exact ih piece h' x hx
    · rw [if_neg ha] at hp
      cases hsp : as.splitOnP p with
      | nil => exact absurd hsp (List.splitOnP_ne_nil p as)
      | cons hd t =>
        rw [hsp, List.modifyHead_cons] at hp
        rcases List.mem_cons.mp hp with rfl | h'
        · rcases List.mem_cons.mp hx with rfl | hx'
          · simpa using ha
          · exact ih hd (by rw [hsp]; exact List.mem_cons_self _ _) x hx'
        · exact ih piece (by rw [hsp]; exact List.mem_cons_of_mem _ h') x hx

/-- Lines of a split contain no line break. -/
theorem splitLines_no_newline (t : Str) : ∀ l ∈ session.splitLines t, '\n' ∉ l := by
  intro l hl hnl
  unfold session.splitLines List.splitOn at hl
  have := splitOnP_pieces _ t l hl '\n' hnl
  simp at this

/-- Splitting inverts joining for nonempty line lists without line breaks. -/
theorem splitLines_joinLines (ls : List Str) (hne : ls ≠ [])
    (h : ∀ l ∈ ls, '\n' ∉ l) :
    session.splitLines (session.joinLines ls) = ls := by
  unfold session.splitLines session.joinLines
  exact List.splitOn_intercalate ls '\n' h hne

/-- The header scan leaves its accumulator alone when no early line is a
header line. -/
theorem headerStartAux_acc :
    ∀ (ls : List Str) (i acc : Nat),
      (∀ l ∈ ls.take (5 - i), session.isHeaderLine l = false) →
      session.headerStartAux ls i acc = acc := by
  intro ls
  induction ls with
  | nil => intro i acc _; rfl
  | cons l ls ih =>
    intro i acc h
    rw [session.headerStartAux]
    by_cases hi : i < 5
    · have hl : session.isHeaderLine l = false := by
        refine h l ?_
        rw [show 5 - i = (5 - (i + 1)) + 1 from by omega]
        exact List.mem_cons_self _ _
      rw [if_pos hi, hl]
      refine ih (i + 1) acc ?_
      intro l' hl'
      refine h l' ?_
      rw [show 5 - i = (5 - (i + 1)) + 1 from by omega]
      exact List.mem_cons_of_mem _ hl'
    · rw [if_neg hi]

/-- The footer scan returns the line count when no line carries a footer
marker. -/
theorem footerStartAux_id (n : Nat) :
    ∀ (ps : List (Nat × Str)),
      (∀ il ∈ ps, session.isFooterLine il.2 = false) →
      session.footerStartAux n ps n false = n := by
  intro ps
  induction ps with
  | nil => intro _; rfl
  | cons il rest ih =>
    intro h
    rw [session.footerStartAux]
    have hil := h il (List.mem_cons_self _ _)
    simp [hil]
    exact ih (fun il' hil' => h il' (List.mem_cons_of_mem _ hil'))

/-- After the trailing trim, the cut is zero, at or before the start, or the
line just before it is not whitespace-only. -/
theorem trimTrailing_post (lines : List Str) (s : Nat) :
    ∀ e0, session.trimTrailing lines s e0 = 0 ∨
      session.trimTrailing lines s e0 ≤ s ∨
      trimSpace (lines.getD (session.trimTrailing lines s e0 - 1) []) ≠ [] := by
  intro e0
  induction e0 with
  | zero => exact Or.inl rfl
  | succ e ih =>
    rw [session.trimTrailing]
    by_cases hc : s < e + 1 ∧ trimSpace (lines.getD e []) = []
    · rw [if_pos hc]
      exact ih
    · rw [if_neg hc]
      by_cases hs : s < e + 1
      · refine Or.inr (Or.inr ?_)
        simp only [Nat.add_sub_cancel]
        intro hblank
        exact hc ⟨hs, hblank⟩
      · exact Or.inr (Or.inl (by omega))

/-- A string that splits into lines with no header line among the first
five, no footer-marker line anywhere, and a non-blank final line is a fixed
point of `StripMetadataOnly`. -/
theorem stripMetadataOnly_fixed (t : Str)
    (hf : ∀ l ∈ session.splitLines t, session.isFooterLine l = false)
    (hh : ∀ l ∈ (session.splitLines t).take 5, session.isHeaderLine l = false)
    (hlast : trimSpace ((session.splitLines t).getD
      ((session.splitLines t).length - 1) []) ≠ []) :
    session.StripMetadataOnly t = t := by
  have hne : session.splitLines t ≠ [] := by
    unfold session.splitLines List.splitOn
    exact List.splitOnP_ne_nil _ t
  have hnpos : 1 ≤ (session.splitLines t).length := by
    cases hsp : session.splitLines t with
    | nil => exact absurd hsp hne
    | cons a l => simp
  have hsi : session.headerStartAux (session.splitLines t) 0 0 = 0 := by
    refine headerStartAux_acc _ 0 0 ?_
    simpa using hh
  have hfsi : session.footerStartAux (session.splitLines t).length
      (session.splitLines t).enum.reverse (session.splitLines t).length false =
      (session.splitLines t).length := by
    refine footerStartAux_id _ _ ?_
    intro il hil
    refine hf il.2 ?_
    have h1 : il ∈ (session.splitLines t).enum := List.mem_reverse.mp hil
    have h2 : il.2 ∈ (session.splitLines t).enum.map Prod.snd :=
      List.mem_map_of_mem Prod.snd h1
    rwa [List.enum_map_snd] at h2
  have hei : session.trimTrailing (session.splitLines t) 0
      (session.splitLines t).length = (session.splitLines t).length := by
    rw [show (session.splitLines t).length = ((session.splitLines t).length - 1) + 1
      from by omega, session.trimTrailing, if_neg]
    intro hcon
    exact hlast hcon.2
  simp only [session.StripMetadataOnly]
  rw [hsi, hfsi, hei, if_neg (by omega), List.drop_zero, List.take_length]
  unfold session.joinLines session.splitLines
  exact List.intercalate_splitOn t '\n'

/-- Shape of `StripMetadataOnly` output: empty, or a nonempty line window of
the input whose final line is not whitespace-only. -/
theorem stripMetadataOnly_cases (s : Str) :
    session.StripMetadataOnly s = [] ∨
    ∃ si ei, si < ei ∧ ei ≤ (session.splitLines s).length ∧
      trimSpace ((session.splitLines s).getD (ei - 1) []) ≠ [] ∧
      session.StripMetadataOnly s =
        session.joinLines (((session.splitLines s).take ei).drop si) := by
  simp only [session.StripMetadataOnly]
  set lines := session.splitLines s with hldef
  set si := session.headerStartAux lines 0 0 with hsidef
  set fsi := session.footerStartAux lines.length lines.enum.reverse lines.length
    false with hfdef
  set ei := session.trimTrailing lines si fsi with heidef
  by_cases hbr : si ≥ lines.length ∨ si ≥ ei
  · rw [if_pos hbr]
    exact Or.inl rfl
  · rw [if_neg hbr]
    push_neg at hbr
    obtain ⟨h1, h2⟩ := hbr
    have hpost := trimTrailing_post lines si fsi
    rw [← heidef] at hpost
    have hE1 : trimSpace (lines.getD (ei - 1) []) ≠ [] := by
      rcases hpost with h | h | h
      · exact absurd h (by omega)
      · exact absurd h (by omega)
      · exact h
    have hE2 : ei ≤ lines.length := by
      by_contra hgt
      push_neg at hgt
      have hdef : lines.getD (ei - 1) [] = [] :=
        List.getD_eq_default _ _ (by omega)
      rw [hdef] at hE1
      exact hE1 rfl
    exact Or.inr ⟨si, ei, h2, hE2, hE1, rfl⟩

/-- C8: CORRECTED.  `StripMetadataOnly` is not idempotent in general (see the
counterexample theorem); the amended claim holds: whenever the stripped
output has no footer-marker line and no header line among its first five
lines, a second application is the identity. -/
theorem c8_strip_metadata_only_conditional (s : Str)
    (hf : ∀ l ∈ session.splitLines (session.StripMetadataOnly s),
      session.isFooterLine l = false)
    (hh : ∀ l ∈ (session.splitLines (session.StripMetadataOnly s)).take 5,
      session.isHeaderLine l = false) :
    session.StripMetadataOnly (session.StripMetadataOnly s) =
      session.StripMetadataOnly s := by
  rcases stripMetadataOnly_cases s with h0 | ⟨si, ei, h2, hE2, hE1, hout⟩
  · rw [h0]
    decide
  · refine stripMetadataOnly_fixed _ hf hh ?_
    have hls_ne : ((session.splitLines s).take ei).drop si ≠ [] := by
      intro hnil
      have hlen0 := congrArg List.length hnil
      rw [List.length_drop, List.length_take, inf_eq_left.mpr hE2] at hlen0
      simp at hlen0
      omega
    have hnonl : ∀ l ∈ ((session.splitLines s).take ei).drop si, '\n' ∉ l := by
      intro l hl
      exact splitLines_no_newline s l (List.take_subset _ _ (List.drop_subset _ _ hl))
    have hsplit : session.splitLines (session.StripMetadataOnly s) =
        ((session.splitLines s).take ei).drop si := by
      rw [hout]
      exact splitLines_joinLines _ hls_ne hnonl
    rw [hsplit]
    have hlen : (((session.splitLines s).take ei).drop si).length = ei - si := by
      rw [List.length_drop, List.length_take, inf_eq_left.mpr hE2]
    rw [hlen]
    have hgetD : (((session.splitLines s).take ei).drop si).getD (ei - si - 1) [] =
        (session.splitLines s).getD (ei - 1) [] := by
      rw [List.getD_eq_getElem?_getD, List.getD_eq_getElem?_getD, List.getElem?_drop,
        show si + (ei - si - 1) = ei - 1 from by omega, List.getElem?_take,
        if_pos (by omega)]
    rw [hgetD]
    exact hE1

/-- Witness for C8: the amended idempotence applied to a concrete session
capture with header and footer. -/
theorem c8_conditional_witness :
    session.StripMetadataOnly (session.StripMetadataOnly
        "Script started on X\nhello\nScript done on Y".data) =
      session.StripMetadataOnly
        "Script started on X\nhello\nScript done on Y".data :=
  c8_strip_metadata_only_conditional
    "Script started on X\nhello\nScript done on Y".data (by decide) (by decide)
